import Mathlib

/-!
# mineTUIper: a verification development of the board engine and solver

Shallow embedding of the Minesweeper board engine (`board.py`), the
constraint-propagation solver (`solver.py`) and the no-guessing generation
loop (`analyzer.py` / `mapper.py`).

Conventions of the embedding:
* Python's mutable `Cell` objects shared between the board grid and the
  bookkeeping sets become a record-valued function `cells : Coord → Cell`
  together with explicit `Finset` fields for the `revealed`, `unrevealed`
  and `flagged` sets, exactly mirroring the double bookkeeping of the source
  (per-cell booleans *and* separate sets).
* In-place mutation becomes state threading: an operation takes the board
  and returns the updated board.  An exception that leaves mutated state
  behind (Python raises after mutating) is modelled by returning the
  mutated state inside the error value.
* `random.sample` / `random.choice` results are passed in as explicit
  arguments (the list of sampled cells, the picked cell), since the claims
  quantify over all random outcomes.
* Python iterates over `set` objects in an unspecified order; the embedding
  fixes the canonical `Finset.toList` order.  Every statement proved below
  is either order-independent or evaluated on a concrete input.
* Machine integers are `Int` (Python ints are unbounded, no overflow).
* Recursions that Python runs on the call stack (the flood reveal, the
  cluster-refactoring `while changes` loop, the solve loop) take an explicit
  fuel argument; fuel large enough for the concrete inputs is supplied, and
  all general theorems are proved for every fuel value.
-/

namespace MineTUIper

abbrev Coord := Nat × Nat

/-- `Cell` of `board.py`: location is the index into `Board.cells`; the
remaining attributes are the mutable fields `mines`, `flags`, `is_mine`,
`revealed`, `flagged`, `known` (the display-only `trigger` is omitted as
pure presentation state). -/
structure Cell where
  is_mine : Bool
  mines : Int
  flags : Int
  revealed : Bool
  flagged : Bool
  known : Bool
deriving DecidableEq, Repr

def Cell.initial : Cell :=
  { is_mine := false, mines := 0, flags := 0
    revealed := false, flagged := false, known := false }

/-- `Board` of `board.py`: the grid of cells plus the bookkeeping sets and
the `unflagged` counter.  `rows`/`cols` are carried so neighbourhoods can be
computed. -/
structure Board where
  rows : Nat
  cols : Nat
  unflagged : Int
  cells : Coord → Cell
  revealedS : Finset Coord
  unrevealedS : Finset Coord
  flaggedS : Finset Coord

/-- All coordinates of the grid, `[[Cell(i, j) for j ...] for i ...]`. -/
def gridOf (rows cols : Nat) : Finset Coord :=
  Finset.range rows ×ˢ Finset.range cols

def Board.grid (b : Board) : Finset Coord := gridOf b.rows b.cols

/-- `Board.get_neighbour_cells`: the up-to-8 surrounding cells, clipped to
the grid, excluding the cell itself. -/
def nbhd (rows cols : Nat) (p : Coord) : Finset Coord :=
  (gridOf rows cols).filter fun q =>
    q ≠ p ∧ q.1 ≤ p.1 + 1 ∧ p.1 ≤ q.1 + 1 ∧ q.2 ≤ p.2 + 1 ∧ p.2 ≤ q.2 + 1

def Board.nbhd (b : Board) (p : Coord) : Finset Coord := MineTUIper.nbhd b.rows b.cols p

/-- `Board.__init__(rows, cols, mines)`: every cell hidden, no mines placed,
`unflagged = mines`. -/
def Board.init (rows cols : Nat) (mines : Int) : Board :=
  { rows := rows, cols := cols, unflagged := mines
    cells := fun _ => Cell.initial
    revealedS := ∅
    unrevealedS := gridOf rows cols
    flaggedS := ∅ }

/-- The body of `Board.reveal_cell` before the flood test: `cell.reveal()`,
`self.revealed.add(cell)`, `self.unrevealed.discard(cell)`. -/
def doReveal (b : Board) (p : Coord) : Board :=
  { b with
    cells := fun q =>
      if q = p then { b.cells q with revealed := true, known := true } else b.cells q
    revealedS := insert p b.revealedS
    unrevealedS := b.unrevealedS.erase p }

/-- The grid coordinates as a row-major list. -/
def gridList (rows cols : Nat) : List Coord :=
  (List.range rows).flatMap fun i => (List.range cols).map fun j => (i, j)

/-- Canonical enumeration of a set of board cells (Python iterates its
`set` objects in an unspecified order; the sets of the source only ever
hold grid cells, so enumerating the grid in row-major order and filtering
is a faithful, deterministic choice). -/
def listOf (rows cols : Nat) (s : Finset Coord) : List Coord :=
  (gridList rows cols).filter fun q => decide (q ∈ s)

/-- Neighbour list in the canonical order (Python iterates the neighbour
set in an unspecified order; the flood result is order-independent). -/
def nbhdList (rows cols : Nat) (p : Coord) : List Coord :=
  listOf rows cols (nbhd rows cols p)

/-- The recursive flood of `Board.reveal_cell`, as a worklist.  Popping `p`:
if `p` is already revealed it is skipped (Python's lazy `filter(lambda c:
not c.revealed, ...)` re-checks at iteration time); otherwise `p` is
revealed and, when its `mines` count is zero, its neighbours are pushed
(depth-first, matching the recursion order of the source).  Note that the
flood does NOT skip flagged cells — only revealed ones — exactly as in the
source. -/
def revealGo (rows cols : Nat) : Nat → Board → List Coord → Board
  | 0, b, _ => b
  | _ + 1, b, [] => b
  | fuel + 1, b, p :: rest =>
    if (b.cells p).revealed then revealGo rows cols fuel b rest
    else
      let b1 := doReveal b p
      if (b1.cells p).mines = 0 then
        revealGo rows cols fuel b1 (nbhdList rows cols p ++ rest)
      else revealGo rows cols fuel b1 rest

/-- Fuel that over-approximates the total number of worklist steps of a
flood on an `rows × cols` board. -/
def revealFuel (rows cols : Nat) : Nat := 10 * (rows * cols) + 10

/-- `Board.reveal_cell(cell)`: reveal unconditionally (the source performs
no already-revealed / flagged check), then flood from zero-count cells. -/
def Board.reveal_cell (b : Board) (p : Coord) : Board :=
  let b1 := doReveal b p
  if (b1.cells p).mines = 0 then
    revealGo b.rows b.cols (revealFuel b.rows b.cols) b1 (nbhdList b.rows b.cols p)
  else b1

/-- `Board.flag_cell(cell)`: `cell.flag()`, add to `flagged`, decrement
`unflagged`, bump each neighbour's `flags`. -/
def Board.flag_cell (b : Board) (p : Coord) : Board :=
  { b with
    cells := fun q =>
      let c := b.cells q
      let c := if q = p then { c with flagged := true, known := true } else c
      if q ∈ b.nbhd p then { c with flags := c.flags + 1 } else c
    flaggedS := insert p b.flaggedS
    unflagged := b.unflagged - 1 }

/-- `Board.unflag_cell(cell)`. -/
def Board.unflag_cell (b : Board) (p : Coord) : Board :=
  { b with
    cells := fun q =>
      let c := b.cells q
      let c := if q = p then { c with flagged := false, known := false } else c
      if q ∈ b.nbhd p then { c with flags := c.flags - 1 } else c
    flaggedS := b.flaggedS.erase p
    unflagged := b.unflagged + 1 }

/-- `Board.hide_all`. -/
def Board.hide_all (b : Board) : Board :=
  { b with
    cells := fun q =>
      if q ∈ b.revealedS then { b.cells q with revealed := false, known := false }
      else b.cells q
    unrevealedS := b.unrevealedS ∪ b.revealedS
    revealedS := ∅ }

/-- `Board.unflag_all`: each flagged cell is unflagged and decrements its
neighbours' `flags`; the net effect on a cell `q` is a decrement by the
number of flagged cells in `q`'s neighbourhood. -/
def Board.unflag_all (b : Board) : Board :=
  { b with
    cells := fun q =>
      let c := b.cells q
      let c := if q ∈ b.flaggedS then { c with flagged := false, known := false } else c
      { c with flags := c.flags - ((b.flaggedS ∩ b.nbhd q).card : Int) }
    unflagged := b.unflagged + (b.flaggedS.card : Int)
    flaggedS := ∅ }

/-- `Board.reset`: `hide_all` then `unflag_all`. -/
def Board.reset (b : Board) : Board := b.hide_all.unflag_all

/-- `cells = [cell for cell in self.cells if cell in perimeter]` of
`Board.place_mines`. -/
def Board.eligible (b : Board) (perim : Finset Coord) : Finset Coord :=
  b.grid.filter fun q => q ∈ perim

/-- The first phase of `Board.place_mines`: clear every mine currently in
the perimeter and decrement the `mines` count of each of its neighbours. -/
def Board.clearMines (b : Board) (perim : Finset Coord) : Board :=
  let mined := (b.eligible perim).filter fun q => (b.cells q).is_mine
  { b with
    cells := fun q =>
      let c := b.cells q
      let c1 := if q ∈ mined then { c with is_mine := false } else c
      { c1 with mines := c1.mines - ((mined ∩ b.nbhd q).card : Int) } }

/-- Placing one sampled mine: set `is_mine`, bump each neighbour's `mines`. -/
def placeOne (b : Board) (p : Coord) : Board :=
  { b with
    cells := fun q =>
      let c := b.cells q
      let c := if q = p then { c with is_mine := true } else c
      if q ∈ b.nbhd p then { c with mines := c.mines + 1 } else c }

/-- The second phase of `Board.place_mines`: place the cells sampled by
`random.sample(cells, n_mines)`. -/
def Board.placeSampled (b : Board) (sampled : List Coord) : Board :=
  sampled.foldl placeOne b

inductive PlaceErr where
  | insufficientCells
deriving DecidableEq, Repr

/-- `Board.place_mines(perimeter, n_mines)` with the random sample passed
explicitly.  Python's `random.sample` raises `ValueError` when
`n_mines > len(cells)`, but only *after* the clearing loop has already
mutated the board in place; the error value therefore carries the mutated
state observable at the raise point. -/
def Board.place_mines (b : Board) (perim : Finset Coord) (n : Nat)
    (sampled : List Coord) : Except (PlaceErr × Board) Board :=
  let elig := b.eligible perim
  let b1 := b.clearMines perim
  if elig.card < n then Except.error (PlaceErr.insufficientCells, b1)
  else Except.ok (b1.placeSampled sampled)

/-- `Board.check_win`: every still-hidden cell is a mine. -/
def Board.check_win (b : Board) : Bool :=
  decide (∀ p ∈ b.unrevealedS, (b.cells p).is_mine = true)

/-! ## The solver (`solver.py`)

Python's `Cluster` objects are shared mutable references: the cluster list
and the `cluster_map` alias the same objects, and the refactoring loop
mutates them in place.  The embedding gives each cluster a stable index
into a store (`List Cluster`); mutation updates the store, and the stale
`cluster_map` of the source is modelled by looking neighbours up through a
snapshot of the store taken when the map was last rebuilt. -/

/-- `Cluster`: a set of cells with the exact number of mines known to lie
among them. -/
structure Cluster where
  cells : Finset Coord
  mines : Int
deriving DecidableEq

def defaultCluster : Cluster := { cells := ∅, mines := 0 }

/-- Unknown (`not known`, i.e. neither revealed nor flagged) neighbours of
a cell, as used throughout `propagate_known_values`. -/
def unknownNbrs (b : Board) (p : Coord) : Finset Coord :=
  (b.nbhd p).filter fun q => (b.cells q).known = false

/-- The naive cluster generation of `propagate_known_values`: one cluster
per revealed cell that still has unknown neighbours, with mine count
`cell.mines - cell.flags`. -/
def buildClusters (b : Board) : List Cluster :=
  (listOf b.rows b.cols b.revealedS).filterMap fun p =>
    let u := unknownNbrs b p
    if u = ∅ then none else some { cells := u, mines := (b.cells p).mines - (b.cells p).flags }

/-- `Solver.get_neighbour_clusters` at the index level: the ids of the
clusters (looked up through the `snapshot` the `cluster_map` was built
from) sharing at least one cell with `cs`. -/
def nbrIdsIn (snapshot : List Cluster) (alive : List Nat) (cs : Finset Coord) : List Nat :=
  alive.filter fun j => decide (((snapshot.getD j defaultCluster).cells ∩ cs).Nonempty)

/-- One subtraction step of the refactoring loop: if the (current value of
the) neighbour cluster's cells are a strict subset of the accumulator's,
subtract cells and mines; the `Bool` records Python's `changes` flag. -/
def subtractNbrs (cur : List Cluster) (nbrs : List Nat) (acc : Cluster × Bool) : Cluster × Bool :=
  nbrs.foldl
    (fun ab j =>
      let nc := cur.getD j defaultCluster
      if nc.cells ⊂ ab.1.cells then
        ({ cells := ab.1.cells \ nc.cells, mines := ab.1.mines - nc.mines }, true)
      else ab)
    acc

/-- State threaded through one pass of the refactoring `while changes`
loop: the current store, the ids kept for the next pass (`new_clusters`),
the accumulated trivial deductions, and the `changes` flag. -/
structure PassState where
  store : List Cluster
  kept : List Nat
  toR : Finset Coord
  toF : Finset Coord
  changed : Bool

/-- Processing one cluster of a refactoring pass.  `snapshot` is the store
as it was when `cluster_map` was last rebuilt (start of the pass);
`st.store` is the current, part-way mutated store. -/
def passStep (snapshot : List Cluster) (aliveIn : List Nat) (st : PassState) (i : Nat) : PassState :=
  let cl := st.store.getD i defaultCluster
  if cl.mines = 0 then
    -- trivial: all cells are safe; the cluster is dropped
    { st with toR := st.toR ∪ cl.cells }
  else if cl.mines = (cl.cells.card : Int) then
    -- trivial: every cell is a mine; the cluster is dropped
    { st with toF := st.toF ∪ cl.cells }
  else
    let nbrs := nbrIdsIn snapshot aliveIn cl.cells
    let ac := subtractNbrs st.store nbrs (cl, st.changed)
    if ac.1.cells = ∅ then
      { st with store := st.store.set i ac.1, changed := ac.2 }
    else
      { st with store := st.store.set i ac.1, kept := st.kept ++ [i], changed := ac.2 }

/-- One full pass over the clusters alive at the start of the pass. -/
def refactorPass (store : List Cluster) (alive : List Nat) (toR toF : Finset Coord) : PassState :=
  alive.foldl (passStep store alive)
    { store := store, kept := [], toR := toR, toF := toF, changed := false }

/-- The `while changes` refactoring loop (fuel-bounded; each continuing
pass strictly shrinks the total cluster size, so the fuel supplied by
`roundOutcome` always suffices on concrete runs). -/
def refactorLoop : Nat → List Cluster → List Nat → Finset Coord → Finset Coord →
    List Cluster × List Nat × Finset Coord × Finset Coord
  | 0, store, alive, toR, toF => (store, alive, toR, toF)
  | fuel + 1, store, alive, toR, toF =>
    let st := refactorPass store alive toR toF
    if st.changed then refactorLoop fuel st.store st.kept st.toR st.toF
    else (st.store, st.kept, st.toR, st.toF)

/-- Ids of the clusters of `cls` overlapping the cell set `u`
(`get_neighbour_clusters(unknown_neighbours)` over the rebuilt map). -/
def nbrIdx (cls : List Cluster) (u : Finset Coord) : Finset Nat :=
  (Finset.range cls.length).filter fun i =>
    ((cls.getD i defaultCluster).cells ∩ u).Nonempty

/-- The non-empty, pairwise cell-disjoint combinations of the clusters
overlapping `u` (`get_combinations` filtered by `not get_common_cells`;
clusters are identified by index, matching Python's object identity). -/
def validCombos (cls : List Cluster) (u : Finset Coord) : Finset (Finset Nat) :=
  (nbrIdx cls u).powerset.filter fun s =>
    s.Nonempty ∧ ∀ i ∈ s, ∀ j ∈ s, i ≠ j →
      Disjoint (cls.getD i defaultCluster).cells (cls.getD j defaultCluster).cells

/-- `cluster_comb_mines`. -/
def combMines (cls : List Cluster) (s : Finset Nat) : Int :=
  s.sum fun i => (cls.getD i defaultCluster).mines

/-- `cluster_comb_cells`. -/
def combCells (cls : List Cluster) (s : Finset Nat) : Finset Coord :=
  s.biUnion fun i => (cls.getD i defaultCluster).cells

/-- `remaining`: `cell.mines - cell.flags`. -/
def remOf (b : Board) (p : Coord) : Int :=
  (b.cells p).mines - (b.cells p).flags

/-- The flag condition of the combination pass: the combination permits
fewer mines than the cell needs, and the uncovered unknown neighbours are
exactly enough to make up the difference. -/
def condFlag (b : Board) (cls : List Cluster) (p : Coord) (s : Finset Nat) : Prop :=
  combMines cls s < remOf b p ∧
    ((unknownNbrs b p \ combCells cls s).card : Int) = remOf b p - combMines cls s

instance (b cls p s) : Decidable (condFlag b cls p s) := by
  unfold condFlag; infer_instance

/-- The reveal condition of the combination pass: the combination's cells
are strictly contained in the unknown neighbourhood and its mines satisfy
the cell exactly. -/
def condReveal (b : Board) (cls : List Cluster) (p : Coord) (s : Finset Nat) : Prop :=
  combCells cls s ⊂ unknownNbrs b p ∧ combMines cls s = remOf b p

instance (b cls p s) : Decidable (condReveal b cls p s) := by
  unfold condReveal; infer_instance

/-- Cells flagged by the combination pass (the source accumulates them with
set union `|=` over the revealed cells and their valid combinations, so the
result is this union). -/
def combToFlag (b : Board) (cls : List Cluster) : Finset Coord :=
  b.revealedS.biUnion fun p =>
    (validCombos cls (unknownNbrs b p)).biUnion fun s =>
      if condFlag b cls p s then unknownNbrs b p \ combCells cls s else ∅

/-- Cells revealed by the combination pass; the source tests the reveal
condition in an `elif`, i.e. only when the flag condition fails. -/
def combToReveal (b : Board) (cls : List Cluster) : Finset Coord :=
  b.revealedS.biUnion fun p =>
    (validCombos cls (unknownNbrs b p)).biUnion fun s =>
      if ¬condFlag b cls p s ∧ condReveal b cls p s then
        unknownNbrs b p \ combCells cls s
      else ∅

/-- Sum of the mine counts of the live clusters. -/
def clustersMinesSum (cls : List Cluster) : Int := (cls.map Cluster.mines).sum

/-- Union of the live clusters' cells. -/
def allClusterCells (cls : List Cluster) : Finset Coord :=
  cls.foldr (fun c s => c.cells ∪ s) ∅

/-- The final checks of `propagate_known_values` (lines 140-158), entered
when the tile and combination passes produced nothing: `none` means the
round returns `False` (no advancement, or the board is solved);
`some (toReveal, toFlag)` the cells the round will act on. -/
def fallbackStep (b : Board) (cls : List Cluster) : Option (Finset Coord × Finset Coord) :=
  let unknown := b.unrevealedS \ b.flaggedS
  if unknown = ∅ then none
  else if b.unflagged = 0 then some (unknown, ∅)
  else if (unknown.card : Int) = b.unflagged then some (∅, unknown)
  else if clustersMinesSum cls = b.unflagged then
    let rem := unknown \ allClusterCells cls
    if rem = ∅ then none else some (rem, ∅)
  else none

/-- One round of `Solver.propagate_known_values` up to (but not including)
the final application of the deduced sets: returns the reveal/flag sets of
the round (`none` when the round reports no progress) together with the
refactored cluster list (`self.clusters` at the end of the round). -/
def roundOutcome (b : Board) : Option (Finset Coord × Finset Coord) × List Cluster :=
  let cls0 := buildClusters b
  let fuel := (cls0.map fun c => c.cells.card).sum + 1
  let r := refactorLoop fuel cls0 (List.range cls0.length) ∅ ∅
  let cls := r.2.1.map fun i => r.1.getD i defaultCluster
  let toR := r.2.2.1 ∪ combToReveal b cls
  let toF := r.2.2.2 ∪ combToFlag b cls
  if toR = ∅ ∧ toF = ∅ then (fallbackStep b cls, cls)
  else (some (toR, toF), cls)

/-- Applying a round's deductions: all reveals, then all flags, in the
canonical order. -/
def applySets (b : Board) (r f : Finset Coord) : Board :=
  let b1 := (listOf b.rows b.cols r).foldl Board.reveal_cell b
  (listOf b1.rows b1.cols f).foldl Board.flag_cell b1

/-- `Solver.propagate_known_values`: returns whether progress was made and
the updated board. -/
def propagate (b : Board) : Bool × Board :=
  match (roundOutcome b).1 with
  | none => (false, b)
  | some (r, f) => (true, applySets b r f)

/-- The clusters the solver holds after a round (`self.clusters`). -/
def roundClusters (b : Board) : List Cluster := (roundOutcome b).2

/-- The `while self.propagate_known_values(): continue` loop of
`Solver.solve`, fuel-bounded. -/
def solveLoopB : Nat → Board → Board
  | 0, b => b
  | n + 1, b =>
    let r := propagate b
    if r.1 then solveLoopB n r.2 else r.2

/-- `Solver.solve` with explicit round fuel: run propagation to a fixed
point, then report `check_win`. -/
def solverSolve (fuel : Nat) (b : Board) : Bool × Board :=
  let b1 := solveLoopB fuel b
  (b1.check_win, b1)

/-! ## `Solver.make_guess` -/

/-- `Cluster.mine_perc` (`mines / len(cells)`), as an exact rational;
Python raises `ZeroDivisionError` on an empty cluster, which the functions
below surface as an explicit error before dividing. -/
def Cluster.minePerc (c : Cluster) : Rat := (c.mines : Rat) / (c.cells.card : Rat)

inductive GuessErr where
  | indexError
  | divByZero
deriving DecidableEq, Repr

/-- The loop of `make_guess`: track the best cluster while subtracting
every cluster's cells and mines from the unclustered pool.  Comparing
`cluster.mine_perc` evaluates `mines / len(cells)`, which raises on an
empty cluster. -/
def guessLoop : Cluster → Finset Coord → Int → List Cluster →
    Except GuessErr (Cluster × Finset Coord × Int)
  | best, uc, um, [] => Except.ok (best, uc, um)
  | best, uc, um, c :: rest =>
    if c.cells = ∅ then Except.error GuessErr.divByZero
    else
      guessLoop (if c.minePerc < best.minePerc then c else best)
        (uc \ c.cells) (um - c.mines) rest

/-- `Solver.make_guess`, returning the pool `random.choice` picks from.
`clusters[0]` on an empty list raises `IndexError`; the final comparison
divides by `len(unclusterd_cells)`, raising `ZeroDivisionError` when every
unknown cell is covered by a cluster. -/
def make_guess (b : Board) (cls : List Cluster) : Except GuessErr (Finset Coord) :=
  match cls with
  | [] => Except.error GuessErr.indexError
  | c0 :: _ =>
    match guessLoop c0 (b.unrevealedS \ b.flaggedS) b.unflagged cls with
    | Except.error e => Except.error e
    | Except.ok (best, uc, um) =>
      if uc = ∅ then Except.error GuessErr.divByZero
      else Except.ok (if (um : Rat) / (uc.card : Rat) < best.minePerc then uc else best.cells)

/-! ## The no-guessing generation loop (`analyzer.py`, `mapper.py`)

`Analyzer.analyze` (and the equivalent block of `MappedBoard.reveal_cell`)
runs `while True`: solve to a stall; on win stop; otherwise repair the
layout by one of three strategies and loop.  The random draws are passed
in explicitly.  The state a `place_mines` call leaves behind is taken
whether the call succeeds or raises (a raise would propagate out of the
loop; the runs studied below stay on the success path). -/

/-- The board state after a `place_mines` call, success or failure. -/
def placeMinesRun (b : Board) (perim : Finset Coord) (n : Nat) (sampled : List Coord) : Board :=
  match b.place_mines perim n sampled with
  | Except.ok b' => b'
  | Except.error e => e.2

/-- `cell.is_mine = False` followed by decrementing each neighbour's
`mines` (the manual mine removal of the mine-walled repair). -/
def removeMine (b : Board) (p : Coord) : Board :=
  { b with
    cells := fun q =>
      let c := b.cells q
      let c := if q = p then { c with is_mine := false } else c
      if q ∈ b.nbhd p then { c with mines := c.mines - 1 } else c }

/-- One iteration of the generation loop of `Analyzer.analyze`
(lines 74-156): solve to a stall; `Sum.inl` is the success exit
(`check_win`), `Sum.inr` the repaired board fed back into the loop.
There is no error exit: every stall maps to a repair. -/
def genStep (rows cols : Nat) (mines : Int) (ic : Coord) (sample : List Coord)
    (flagPick : Coord) (b : Board) : Board ⊕ Board :=
  let b1 := solveLoopB (rows * cols + 1) b
  if b1.check_win then Sum.inl b1
  else
    let unknown := b1.unrevealedS \ b1.flaggedS
    let nbrCells := unknown.biUnion b1.nbhd
    if nbrCells ∩ b1.revealedS = ∅ then
      -- mine wall: unflag a random flagged frontier cell, remove its mine,
      -- relocate it, re-solve from scratch
      let b2 := removeMine (b1.unflag_cell flagPick) flagPick
      let b2 := placeMinesRun b2 unknown b2.unflagged.toNat sample
      Sum.inr (b2.reset.reveal_cell ic)
    else if (unknown.card : Int) = b1.unflagged + 1 then
      -- provably unsolvable: regenerate the whole board from scratch
      let f := Board.init rows cols mines
      let f := placeMinesRun f (f.unrevealedS \ insert ic (nbhd rows cols ic))
        f.unflagged.toNat sample
      Sum.inr (f.reveal_cell ic)
    else
      -- rearrange mines among the non-flagged hidden cells
      Sum.inr (placeMinesRun b1 (b1.unrevealedS \ b1.flaggedS) b1.unflagged.toNat sample)

/-- The `while True` generation loop, with a fuel bound the source does
not have: `none` means the loop is still running after `fuel` iterations. -/
def genLoop (rows cols : Nat) (mines : Int) (ic : Coord) (sample : List Coord)
    (flagPick : Coord) : Nat → Board → Option Board
  | 0, _ => none
  | n + 1, b =>
    Sum.elim (fun done => some done)
      (fun b' => genLoop rows cols mines ic sample flagPick n b')
      (genStep rows cols mines ic sample flagPick b)

/-! ## State invariants and measures -/

/-- The bookkeeping sets agree with the per-cell `revealed`/`flagged`
booleans. -/
def Coh (b : Board) : Prop :=
  ∀ p ∈ b.grid,
    ((p ∈ b.revealedS) ↔ (b.cells p).revealed = true) ∧
    ((p ∈ b.flaggedS) ↔ (b.cells p).flagged = true)

/-- The derived `known` flag agrees with `revealed ∨ flagged`. -/
def KnownCoh (b : Board) : Prop :=
  ∀ p ∈ b.grid, (b.cells p).known = ((b.cells p).revealed || (b.cells p).flagged)

/-- `revealed` and `unrevealed` partition the grid. -/
def PartInv (b : Board) : Prop :=
  b.revealedS ∪ b.unrevealedS = b.grid ∧ Disjoint b.revealedS b.unrevealedS

/-- `flagged ⊆ unrevealed`. -/
def FlagSub (b : Board) : Prop := b.flaggedS ⊆ b.unrevealedS

/-- No cell is simultaneously revealed and flagged. -/
def NoRevFlag (b : Board) : Prop :=
  ∀ p ∈ b.grid, ¬((b.cells p).revealed = true ∧ (b.cells p).flagged = true)

/-- The bookkeeping sets only hold grid cells. -/
def SetsInGrid (b : Board) : Prop :=
  b.revealedS ⊆ b.grid ∧ b.unrevealedS ⊆ b.grid ∧ b.flaggedS ⊆ b.grid

/-- Every cell's `mines` count agrees with the ground-truth mine
placement. -/
def MinesOK (b : Board) : Prop :=
  ∀ p ∈ b.grid,
    (b.cells p).mines = (((b.nbhd p).filter fun q => (b.cells q).is_mine = true).card : Int)

/-- Every flagged cell is an actual mine. -/
def FlagsMine (b : Board) : Prop :=
  ∀ p ∈ b.grid, (b.cells p).flagged = true → (b.cells p).is_mine = true

/-- The three invariants claimed for the board operations. -/
def ClaimInv (b : Board) : Prop := PartInv b ∧ FlagSub b ∧ NoRevFlag b

/-- Structural well-formedness used by the solver-level theorems. -/
def BasicInv (b : Board) : Prop := Coh b ∧ PartInv b ∧ SetsInGrid b ∧ KnownCoh b

instance (b : Board) : Decidable (Coh b) := by unfold Coh; infer_instance
instance (b : Board) : Decidable (KnownCoh b) := by unfold KnownCoh; infer_instance
instance (b : Board) : Decidable (PartInv b) := by unfold PartInv; infer_instance
instance (b : Board) : Decidable (FlagSub b) := by unfold FlagSub; infer_instance
instance (b : Board) : Decidable (NoRevFlag b) := by unfold NoRevFlag; infer_instance
instance (b : Board) : Decidable (SetsInGrid b) := by unfold SetsInGrid; infer_instance
instance (b : Board) : Decidable (MinesOK b) := by unfold MinesOK; infer_instance
instance (b : Board) : Decidable (FlagsMine b) := by unfold FlagsMine; infer_instance
instance (b : Board) : Decidable (ClaimInv b) := by unfold ClaimInv; infer_instance
instance (b : Board) : Decidable (BasicInv b) := by unfold BasicInv; infer_instance

/-- Everything the amended reveal-invariant claim assumes: structural
coherence plus the claimed invariants plus consistency of counts and
flags with the ground truth. -/
def StrongInv (b : Board) : Prop :=
  BasicInv b ∧ FlagSub b ∧ NoRevFlag b ∧ MinesOK b ∧ FlagsMine b

instance (b : Board) : Decidable (StrongInv b) := by unfold StrongInv; infer_instance

/-- The hidden non-flagged ("unknown") cells. -/
def ukSet (b : Board) : Finset Coord := b.unrevealedS \ b.flaggedS

/-- Number of unknown cells, the termination measure of the solve loop. -/
def uk (b : Board) : Nat := (ukSet b).card

/-- `stalls k b` holds when iterating `propagate_known_values` from `b`
hits a no-progress round within `k` additional rounds. -/
def stalls : Nat → Board → Bool
  | 0, b => !(propagate b).1
  | k + 1, b => !(propagate b).1 || stalls k (propagate b).2

/-- `RevealStep b b'` records what a flood reveal can do to a board: only
`revealed`/`known` flags are raised and the `revealed`/`unrevealed` sets
adjusted; flags, mines and the flag set are untouched. -/
def RevealStep (b b' : Board) : Prop :=
  b'.rows = b.rows ∧ b'.cols = b.cols ∧ b'.unflagged = b.unflagged ∧
  b'.flaggedS = b.flaggedS ∧
  b'.unrevealedS ⊆ b.unrevealedS ∧ b.revealedS ⊆ b'.revealedS ∧
  ∀ q : Coord,
    (b'.cells q).flagged = (b.cells q).flagged ∧
    (b'.cells q).is_mine = (b.cells q).is_mine ∧
    (b'.cells q).mines = (b.cells q).mines ∧
    (b'.cells q).flags = (b.cells q).flags ∧
    ((b.cells q).revealed = true → (b'.cells q).revealed = true)

/-- First deduced reveal set of a round (`∅` when no progress). -/
def roundToReveal (b : Board) : Finset Coord :=
  match (roundOutcome b).1 with
  | some rf => rf.1
  | none => ∅

/-- Whether a `place_mines` call failed. -/
def isErr (r : Except (PlaceErr × Board) Board) : Bool :=
  match r with
  | Except.error _ => true
  | Except.ok _ => false

/-- `is_mine` of cell `p` in the state a failed `place_mines` call leaves
behind (`true` when the call succeeded, making the lemma below vacuous
there). -/
def failMineAt (r : Except (PlaceErr × Board) Board) (p : Coord) : Bool :=
  match r with
  | Except.error e => ((e.2.cells p).is_mine)
  | Except.ok _ => true

/-! ## Concrete boards used by the evaluations below -/

/-- 3×4 board, mines at (1,1) and (2,0), cells (0,0) and (0,2) revealed —
a state reachable by two plain reveals whose counts are fully consistent. -/
def c1b : Board :=
  ((Board.init 3 4 2).placeSampled [(1, 1), (2, 0)]).reveal_cell (0, 0) |>.reveal_cell (0, 2)

/-- 1×2 mine-free board with a (wrong) flag on (0,1). -/
def c2b : Board := ((Board.init 1 2 0).flag_cell (0, 1)).reveal_cell (0, 0)

/-- 1×2 board with a flag on (0,1), before any reveal. -/
def c4b : Board := (Board.init 1 2 0).flag_cell (0, 1)

/-- 1×3 board with a mine at (0,0). -/
def c3b : Board := (Board.init 1 3 1).placeSampled [(0, 0)]

/-- 1×3 board, mine at (0,0), centre revealed: the solver's only cluster
covers all unknown cells and carries all remaining mines. -/
def c6b : Board := ((Board.init 1 3 1).placeSampled [(0, 0)]).reveal_cell (0, 1)

/-- The 1×3 scenario of the spec: mine at (0,2), revealed from (0,0). -/
def c9b : Board := ((Board.init 1 3 1).placeSampled [(0, 2)]).reveal_cell (0, 0)

/-- A freshly generated 2×3 board with one mine at (0,2), start cell
(0,0): propagation stalls on the 50/50 pair {(0,2),(1,2)}. -/
def genB0 : Board :=
  let f := Board.init 2 3 1
  let f := placeMinesRun f (f.unrevealedS \ insert (0, 0) (nbhd 2 3 (0, 0)))
    f.unflagged.toNat [(0, 2)]
  f.reveal_cell (0, 0)

/-- 1×2 board with a mine at (0,1): a consistent state for witnesses. -/
def w2b : Board := (Board.init 1 2 1).placeSampled [(0, 1)]

/-- 1×1 board with no mines. -/
def w7b : Board := Board.init 1 1 0

/-- 1×1 board with one (unplaced) mine. -/
def w6b : Board := Board.init 1 1 1

/-- The single cluster the solver builds on `c9b`. -/
def wCls : List Cluster := [{ cells := {(0, 2)}, mines := 1 }]

/-! # Lemmas -/

@[simp]
theorem mem_gridOf {rows cols : Nat} {q : Coord} :
    q ∈ gridOf rows cols ↔ q.1 < rows ∧ q.2 < cols := by
  simp [gridOf, Finset.mem_product]

theorem mem_gridList {rows cols : Nat} {q : Coord} :
    q ∈ gridList rows cols ↔ q.1 < rows ∧ q.2 < cols := by
  constructor
  · intro h
    simp only [gridList, List.mem_flatMap, List.mem_map, List.mem_range] at h
    obtain ⟨i, hi, j, hj, rfl⟩ := h
    exact ⟨hi, hj⟩
  · intro ⟨h1, h2⟩
    simp only [gridList, List.mem_flatMap, List.mem_map, List.mem_range]
    exact ⟨q.1, h1, q.2, h2, rfl⟩

theorem mem_listOf {rows cols : Nat} {s : Finset Coord} {q : Coord} :
    q ∈ listOf rows cols s ↔ (q.1 < rows ∧ q.2 < cols) ∧ q ∈ s := by
  simp [listOf, List.mem_filter, mem_gridList]

theorem listOf_empty (rows cols : Nat) : listOf rows cols ∅ = [] := by
  simp [listOf]

theorem nbhd_subset_grid {rows cols : Nat} {p : Coord} :
    nbhd rows cols p ⊆ gridOf rows cols :=
  Finset.filter_subset _ _

theorem mem_nbhdList {rows cols : Nat} {p q : Coord} :
    q ∈ nbhdList rows cols p ↔ q ∈ nbhd rows cols p := by
  rw [nbhdList, mem_listOf]
  exact ⟨fun h => h.2, fun h => ⟨mem_gridOf.1 (nbhd_subset_grid h), h⟩⟩

/-! ### Frame lemmas for the board operations -/

@[simp] theorem doReveal_rows (b : Board) (p : Coord) : (doReveal b p).rows = b.rows := rfl
@[simp] theorem doReveal_cols (b : Board) (p : Coord) : (doReveal b p).cols = b.cols := rfl
@[simp] theorem doReveal_unflagged (b : Board) (p : Coord) :
    (doReveal b p).unflagged = b.unflagged := rfl
@[simp] theorem doReveal_flaggedS (b : Board) (p : Coord) :
    (doReveal b p).flaggedS = b.flaggedS := rfl
@[simp] theorem doReveal_revealedS (b : Board) (p : Coord) :
    (doReveal b p).revealedS = insert p b.revealedS := rfl
@[simp] theorem doReveal_unrevealedS (b : Board) (p : Coord) :
    (doReveal b p).unrevealedS = b.unrevealedS.erase p := rfl

theorem doReveal_cells_ne {b : Board} {p q : Coord} (h : q ≠ p) :
    (doReveal b p).cells q = b.cells q := by
  simp [doReveal, h]

@[simp] theorem doReveal_flagged (b : Board) (p q : Coord) :
    ((doReveal b p).cells q).flagged = (b.cells q).flagged := by
  by_cases h : q = p <;> simp [doReveal, h]

@[simp] theorem doReveal_is_mine (b : Board) (p q : Coord) :
    ((doReveal b p).cells q).is_mine = (b.cells q).is_mine := by
  by_cases h : q = p <;> simp [doReveal, h]

@[simp] theorem doReveal_mines (b : Board) (p q : Coord) :
    ((doReveal b p).cells q).mines = (b.cells q).mines := by
  by_cases h : q = p <;> simp [doReveal, h]

@[simp] theorem doReveal_flags (b : Board) (p q : Coord) :
    ((doReveal b p).cells q).flags = (b.cells q).flags := by
  by_cases h : q = p <;> simp [doReveal, h]

@[simp] theorem doReveal_revealed_self (b : Board) (p : Coord) :
    ((doReveal b p).cells p).revealed = true := by
  simp [doReveal]

@[simp] theorem doReveal_known_self (b : Board) (p : Coord) :
    ((doReveal b p).cells p).known = true := by
  simp [doReveal]

theorem doReveal_revealed_mono {b : Board} {p q : Coord}
    (h : (b.cells q).revealed = true) : ((doReveal b p).cells q).revealed = true := by
  by_cases hq : q = p <;> simp [doReveal, hq, h]

@[simp] theorem flag_cell_rows (b : Board) (p : Coord) : (b.flag_cell p).rows = b.rows := rfl
@[simp] theorem flag_cell_cols (b : Board) (p : Coord) : (b.flag_cell p).cols = b.cols := rfl
@[simp] theorem flag_cell_revealedS (b : Board) (p : Coord) :
    (b.flag_cell p).revealedS = b.revealedS := rfl
@[simp] theorem flag_cell_unrevealedS (b : Board) (p : Coord) :
    (b.flag_cell p).unrevealedS = b.unrevealedS := rfl
@[simp] theorem flag_cell_flaggedS (b : Board) (p : Coord) :
    (b.flag_cell p).flaggedS = insert p b.flaggedS := rfl

@[simp] theorem flag_cell_revealed (b : Board) (p q : Coord) :
    ((b.flag_cell p).cells q).revealed = (b.cells q).revealed := by
  simp only [Board.flag_cell]
  split <;> split <;> rfl

@[simp] theorem flag_cell_is_mine (b : Board) (p q : Coord) :
    ((b.flag_cell p).cells q).is_mine = (b.cells q).is_mine := by
  simp only [Board.flag_cell]
  split <;> split <;> rfl

@[simp] theorem flag_cell_mines (b : Board) (p q : Coord) :
    ((b.flag_cell p).cells q).mines = (b.cells q).mines := by
  simp only [Board.flag_cell]
  split <;> split <;> rfl

theorem flag_cell_flagged (b : Board) (p q : Coord) :
    ((b.flag_cell p).cells q).flagged = if q = p then true else (b.cells q).flagged := by
  simp only [Board.flag_cell]
  by_cases h : q = p <;> simp only [if_pos, if_neg, h] <;> split <;> rfl

theorem flag_cell_known (b : Board) (p q : Coord) :
    ((b.flag_cell p).cells q).known = if q = p then true else (b.cells q).known := by
  simp only [Board.flag_cell]
  by_cases h : q = p <;> simp only [if_pos, if_neg, h] <;> split <;> rfl

@[simp] theorem unflag_cell_rows (b : Board) (p : Coord) : (b.unflag_cell p).rows = b.rows := rfl
@[simp] theorem unflag_cell_cols (b : Board) (p : Coord) : (b.unflag_cell p).cols = b.cols := rfl
@[simp] theorem unflag_cell_revealedS (b : Board) (p : Coord) :
    (b.unflag_cell p).revealedS = b.revealedS := rfl
@[simp] theorem unflag_cell_unrevealedS (b : Board) (p : Coord) :
    (b.unflag_cell p).unrevealedS = b.unrevealedS := rfl
@[simp] theorem unflag_cell_flaggedS (b : Board) (p : Coord) :
    (b.unflag_cell p).flaggedS = b.flaggedS.erase p := rfl

@[simp] theorem unflag_cell_revealed (b : Board) (p q : Coord) :
    ((b.unflag_cell p).cells q).revealed = (b.cells q).revealed := by
  simp only [Board.unflag_cell]
  split <;> split <;> rfl

theorem unflag_cell_flagged (b : Board) (p q : Coord) :
    ((b.unflag_cell p).cells q).flagged = if q = p then false else (b.cells q).flagged := by
  simp only [Board.unflag_cell]
  by_cases h : q = p <;> simp only [if_pos, if_neg, h] <;> split <;> rfl

@[simp] theorem hide_all_rows (b : Board) : b.hide_all.rows = b.rows := rfl
@[simp] theorem hide_all_cols (b : Board) : b.hide_all.cols = b.cols := rfl
@[simp] theorem hide_all_revealedS (b : Board) : b.hide_all.revealedS = ∅ := rfl
@[simp] theorem hide_all_unrevealedS (b : Board) :
    b.hide_all.unrevealedS = b.unrevealedS ∪ b.revealedS := rfl
@[simp] theorem hide_all_flaggedS (b : Board) : b.hide_all.flaggedS = b.flaggedS := rfl

theorem hide_all_revealed (b : Board) (q : Coord) :
    (b.hide_all.cells q).revealed = if q ∈ b.revealedS then false else (b.cells q).revealed := by
  by_cases h : q ∈ b.revealedS <;> simp [Board.hide_all, h]

@[simp] theorem hide_all_flagged (b : Board) (q : Coord) :
    (b.hide_all.cells q).flagged = (b.cells q).flagged := by
  by_cases h : q ∈ b.revealedS <;> simp [Board.hide_all, h]

@[simp] theorem unflag_all_rows (b : Board) : b.unflag_all.rows = b.rows := rfl
@[simp] theorem unflag_all_cols (b : Board) : b.unflag_all.cols = b.cols := rfl
@[simp] theorem unflag_all_revealedS (b : Board) : b.unflag_all.revealedS = b.revealedS := rfl
@[simp] theorem unflag_all_unrevealedS (b : Board) :
    b.unflag_all.unrevealedS = b.unrevealedS := rfl
@[simp] theorem unflag_all_flaggedS (b : Board) : b.unflag_all.flaggedS = ∅ := rfl

@[simp] theorem unflag_all_revealed (b : Board) (q : Coord) :
    (b.unflag_all.cells q).revealed = (b.cells q).revealed := by
  by_cases h : q ∈ b.flaggedS <;> simp [Board.unflag_all, h]

theorem unflag_all_flagged (b : Board) (q : Coord) :
    (b.unflag_all.cells q).flagged =
      if q ∈ b.flaggedS then false else (b.cells q).flagged := by
  by_cases h : q ∈ b.flaggedS <;> simp [Board.unflag_all, h]

@[simp] theorem clearMines_rows (b : Board) (s : Finset Coord) : (b.clearMines s).rows = b.rows := rfl
@[simp] theorem clearMines_cols (b : Board) (s : Finset Coord) : (b.clearMines s).cols = b.cols := rfl
@[simp] theorem clearMines_revealedS (b : Board) (s : Finset Coord) :
    (b.clearMines s).revealedS = b.revealedS := rfl
@[simp] theorem clearMines_unrevealedS (b : Board) (s : Finset Coord) :
    (b.clearMines s).unrevealedS = b.unrevealedS := rfl
@[simp] theorem clearMines_flaggedS (b : Board) (s : Finset Coord) :
    (b.clearMines s).flaggedS = b.flaggedS := rfl
@[simp] theorem clearMines_unflagged (b : Board) (s : Finset Coord) :
    (b.clearMines s).unflagged = b.unflagged := rfl

@[simp] theorem clearMines_revealed (b : Board) (s : Finset Coord) (q : Coord) :
    ((b.clearMines s).cells q).revealed = (b.cells q).revealed := by
  simp only [Board.clearMines]
  split <;> rfl

@[simp] theorem clearMines_flagged (b : Board) (s : Finset Coord) (q : Coord) :
    ((b.clearMines s).cells q).flagged = (b.cells q).flagged := by
  simp only [Board.clearMines]
  split <;> rfl

@[simp] theorem clearMines_known (b : Board) (s : Finset Coord) (q : Coord) :
    ((b.clearMines s).cells q).known = (b.cells q).known := by
  simp only [Board.clearMines]
  split <;> rfl

theorem clearMines_is_mine_off {b : Board} {s : Finset Coord} {q : Coord} (h : q ∉ s) :
    ((b.clearMines s).cells q).is_mine = (b.cells q).is_mine := by
  have hq : q ∉ (b.eligible s).filter fun r => (b.cells r).is_mine = true := by
    intro hm
    exact h (Finset.mem_filter.1 (Finset.mem_filter.1 hm).1).2
  simp only [Board.clearMines]
  rw [if_neg hq]

@[simp] theorem placeOne_rows (b : Board) (p : Coord) : (placeOne b p).rows = b.rows := rfl
@[simp] theorem placeOne_cols (b : Board) (p : Coord) : (placeOne b p).cols = b.cols := rfl
@[simp] theorem placeOne_revealedS (b : Board) (p : Coord) :
    (placeOne b p).revealedS = b.revealedS := rfl
@[simp] theorem placeOne_unrevealedS (b : Board) (p : Coord) :
    (placeOne b p).unrevealedS = b.unrevealedS := rfl
@[simp] theorem placeOne_flaggedS (b : Board) (p : Coord) :
    (placeOne b p).flaggedS = b.flaggedS := rfl

@[simp] theorem placeOne_revealed (b : Board) (p q : Coord) :
    ((placeOne b p).cells q).revealed = (b.cells q).revealed := by
  simp only [placeOne]
  split <;> split <;> rfl

@[simp] theorem placeOne_flagged (b : Board) (p q : Coord) :
    ((placeOne b p).cells q).flagged = (b.cells q).flagged := by
  simp only [placeOne]
  split <;> split <;> rfl

@[simp] theorem placeOne_known (b : Board) (p q : Coord) :
    ((placeOne b p).cells q).known = (b.cells q).known := by
  simp only [placeOne]
  split <;> split <;> rfl

theorem placeSampled_frame (l : List Coord) :
    ∀ b : Board, (b.placeSampled l).rows = b.rows ∧ (b.placeSampled l).cols = b.cols ∧
      (b.placeSampled l).revealedS = b.revealedS ∧
      (b.placeSampled l).unrevealedS = b.unrevealedS ∧
      (b.placeSampled l).flaggedS = b.flaggedS ∧
      ∀ q : Coord,
        ((b.placeSampled l).cells q).revealed = (b.cells q).revealed ∧
        ((b.placeSampled l).cells q).flagged = (b.cells q).flagged ∧
        ((b.placeSampled l).cells q).known = (b.cells q).known := by
  induction l with
  | nil => intro b; simp [Board.placeSampled]
  | cons p rest ih =>
    intro b
    have h := ih (placeOne b p)
    simp only [Board.placeSampled, List.foldl_cons] at h ⊢
    refine ⟨h.1.trans rfl, h.2.1.trans rfl, h.2.2.1.trans rfl, h.2.2.2.1.trans rfl,
      h.2.2.2.2.1.trans rfl, fun q => ?_⟩
    obtain ⟨e1, e2, e3⟩ := h.2.2.2.2.2 q
    exact ⟨by rw [e1]; simp, by rw [e2]; simp, by rw [e3]; simp⟩

/-! ### The flood reveal: monotone modification and invariants -/

theorem revealStep_refl (b : Board) : RevealStep b b := by
  refine ⟨rfl, rfl, rfl, rfl, le_refl _, le_refl _, fun q => ?_⟩
  exact ⟨rfl, rfl, rfl, rfl, fun h => h⟩

theorem revealStep_trans {a b c : Board} (h1 : RevealStep a b) (h2 : RevealStep b c) :
    RevealStep a c := by
  obtain ⟨r1, c1, u1, f1, us1, rs1, q1⟩ := h1
  obtain ⟨r2, c2, u2, f2, us2, rs2, q2⟩ := h2
  refine ⟨r2.trans r1, c2.trans c1, u2.trans u1, f2.trans f1,
    us2.trans us1, rs1.trans rs2, fun q => ?_⟩
  obtain ⟨a1, a2, a3, a4, a5⟩ := q1 q
  obtain ⟨b1, b2, b3, b4, b5⟩ := q2 q
  exact ⟨b1.trans a1, b2.trans a2, b3.trans a3, b4.trans a4, fun h => b5 (a5 h)⟩

theorem revealStep_doReveal (b : Board) (p : Coord) : RevealStep b (doReveal b p) := by
  refine ⟨rfl, rfl, rfl, rfl, Finset.erase_subset _ _, Finset.subset_insert _ _, fun q => ?_⟩
  exact ⟨doReveal_flagged b p q, doReveal_is_mine b p q, doReveal_mines b p q,
    doReveal_flags b p q, fun h => doReveal_revealed_mono h⟩

theorem revealGo_revealStep (rows cols : Nat) :
    ∀ fuel : Nat, ∀ l : List Coord, ∀ b : Board,
      RevealStep b (revealGo rows cols fuel b l) := by
  intro fuel
  induction fuel with
  | zero => intro l b; exact revealStep_refl b
  | succ n ih =>
    intro l b
    cases l with
    | nil => exact revealStep_refl b
    | cons p rest =>
      by_cases hrev : (b.cells p).revealed = true
      · rw [revealGo, if_pos hrev]
        exact ih rest b
      · rw [revealGo, if_neg hrev]
        by_cases hm : ((doReveal b p).cells p).mines = 0
        · rw [if_pos hm]
          exact revealStep_trans (revealStep_doReveal b p) (ih _ _)
        · rw [if_neg hm]
          exact revealStep_trans (revealStep_doReveal b p) (ih _ _)

theorem reveal_cell_revealStep (b : Board) (p : Coord) : RevealStep b (b.reveal_cell p) := by
  rw [Board.reveal_cell]
  by_cases hm : ((doReveal b p).cells p).mines = 0
  · rw [if_pos hm]
    exact revealStep_trans (revealStep_doReveal b p) (revealGo_revealStep _ _ _ _ _)
  · rw [if_neg hm]
    exact revealStep_doReveal b p

theorem reveal_cell_revealed_self (b : Board) (p : Coord) :
    ((b.reveal_cell p).cells p).revealed = true := by
  rw [Board.reveal_cell]
  by_cases hm : ((doReveal b p).cells p).mines = 0
  · rw [if_pos hm]
    exact ((revealGo_revealStep _ _ _ _ _).2.2.2.2.2.2 p).2.2.2.2 (doReveal_revealed_self b p)
  · rw [if_neg hm]
    exact doReveal_revealed_self b p

theorem reveal_cell_flagged (b : Board) (p q : Coord) :
    ((b.reveal_cell p).cells q).flagged = (b.cells q).flagged :=
  ((reveal_cell_revealStep b p).2.2.2.2.2.2 q).1

theorem doReveal_basicInv {b : Board} {p : Coord} (hb : BasicInv b) (hp : p ∈ b.grid) :
    BasicInv (doReveal b p) := by
  obtain ⟨hcoh, ⟨huni, hdis⟩, ⟨hrg, hug, hfg⟩, hkn⟩ := hb
  refine ⟨?_, ⟨?_, ?_⟩, ⟨?_, ?_, ?_⟩, ?_⟩
  · intro q hq
    have hq' : q ∈ b.grid := hq
    by_cases hqp : q = p
    · subst hqp
      refine ⟨?_, ?_⟩
      · simp [doReveal_revealedS, doReveal_revealed_self]
      · simpa [doReveal_flaggedS, doReveal_flagged] using (hcoh q hq').2
    · refine ⟨?_, ?_⟩
      · rw [doReveal_revealedS, Finset.mem_insert, doReveal_cells_ne hqp]
        constructor
        · rintro (h | h)
          · exact absurd h hqp
          · exact (hcoh q hq').1.1 h
        · intro h
          exact Or.inr ((hcoh q hq').1.2 h)
      · simpa [doReveal_flaggedS, doReveal_flagged] using (hcoh q hq').2
  · ext q
    rw [Finset.mem_union, doReveal_revealedS, doReveal_unrevealedS,
      Finset.mem_insert, Finset.mem_erase]
    constructor
    · rintro ((rfl | h) | ⟨_, h⟩)
      · exact hp
      · exact hrg h
      · exact hug h
    · intro hg
      have : q ∈ b.revealedS ∪ b.unrevealedS := huni ▸ hg
      rcases Finset.mem_union.1 this with h | h
      · exact Or.inl (Or.inr h)
      · by_cases hqp : q = p
        · exact Or.inl (Or.inl hqp)
        · exact Or.inr ⟨hqp, h⟩
  · rw [Finset.disjoint_left]
    intro q hq hq'
    rw [doReveal_revealedS, Finset.mem_insert] at hq
    rw [doReveal_unrevealedS, Finset.mem_erase] at hq'
    rcases hq with rfl | hq
    · exact hq'.1 rfl
    · exact Finset.disjoint_left.1 hdis hq hq'.2
  · rw [doReveal_revealedS]
    intro q hq
    rcases Finset.mem_insert.1 hq with rfl | hq
    · exact hp
    · exact hrg hq
  · rw [doReveal_unrevealedS]
    intro q hq
    exact hug (Finset.mem_of_mem_erase hq)
  · rw [doReveal_flaggedS]
    exact hfg
  · intro q hq
    by_cases hqp : q = p
    · subst hqp
      simp [doReveal_known_self, doReveal_revealed_self]
    · rw [doReveal_cells_ne hqp]
      exact hkn q hq

theorem doReveal_strongInv {b : Board} {p : Coord} (hb : StrongInv b) (hp : p ∈ b.grid)
    (hfl : (b.cells p).flagged = false) : StrongInv (doReveal b p) := by
  obtain ⟨hbasic, hfs, hnrf, hmo, hfm⟩ := hb
  have hcoh := hbasic.1
  refine ⟨doReveal_basicInv hbasic hp, ?_, ?_, ?_, ?_⟩
  · intro q hq
    rw [doReveal_flaggedS] at hq
    rw [doReveal_unrevealedS, Finset.mem_erase]
    refine ⟨?_, hfs hq⟩
    rintro rfl
    have := (hcoh q hp).2.1 hq
    rw [hfl] at this
    exact Bool.false_ne_true this
  · intro q hq
    by_cases hqp : q = p
    · subst hqp
      rw [doReveal_flagged, hfl]
      rintro ⟨_, h⟩
      exact Bool.false_ne_true h
    · rw [doReveal_cells_ne hqp]
      exact hnrf q hq
  · intro q hq
    have : ((doReveal b p).nbhd q).filter (fun r => (((doReveal b p).cells r).is_mine = true)) =
        (b.nbhd q).filter fun r => ((b.cells r).is_mine = true) := by
      apply Finset.filter_congr
      intro r _
      rw [doReveal_is_mine]
    rw [doReveal_mines, this]
    exact hmo q hq
  · intro q hq
    rw [doReveal_flagged, doReveal_is_mine]
    exact hfm q hq

/-- On a count-consistent board whose flags all sit on mines, a zero-count
cell has no flagged neighbour: this is why the flood of the source never
reveals a flagged cell when the board is consistent. -/
theorem nbhd_unflagged_of_zero {b : Board} (hmo : MinesOK b) (hfm : FlagsMine b)
    {p : Coord} (hp : p ∈ b.grid) (hm : (b.cells p).mines = 0) :
    ∀ q ∈ b.nbhd p, (b.cells q).flagged = false := by
  intro q hq
  have hqg : q ∈ b.grid := nbhd_subset_grid hq
  have h0 := hmo p hp
  rw [hm] at h0
  have hcard : ((b.nbhd p).filter fun r => ((b.cells r).is_mine = true)).card = 0 := by
    exact_mod_cast h0.symm
  have hempty := Finset.card_eq_zero.1 hcard
  have hmine : (b.cells q).is_mine = false := by
    by_contra hc
    have hq' : q ∈ (b.nbhd p).filter fun r => ((b.cells r).is_mine = true) :=
      Finset.mem_filter.2 ⟨hq, by revert hc; cases (b.cells q).is_mine <;> simp⟩
    rw [hempty] at hq'
    exact absurd hq' (Finset.not_mem_empty q)
  by_cases hf : (b.cells q).flagged = true
  · have := hfm q hqg hf
    rw [hmine] at this
    exact absurd this Bool.false_ne_true
  · exact Bool.not_eq_true _ ▸ eq_false_of_ne_true hf

theorem revealGo_strongInv (rows cols : Nat) :
    ∀ fuel : Nat, ∀ l : List Coord, ∀ b : Board,
      b.rows = rows → b.cols = cols → StrongInv b →
      (∀ q ∈ l, q ∈ b.grid ∧ (b.cells q).flagged = false) →
      StrongInv (revealGo rows cols fuel b l) := by
  intro fuel
  induction fuel with
  | zero => intro l b _ _ hb _; exact hb
  | succ n ih =>
    intro l b hrow hcol hb hl
    cases l with
    | nil => exact hb
    | cons p rest =>
      have hrest : ∀ q ∈ rest, q ∈ b.grid ∧ (b.cells q).flagged = false := by
        intro q hq
        exact hl q (List.mem_cons_of_mem p hq)
      by_cases hrev : (b.cells p).revealed = true
      · rw [revealGo, if_pos hrev]
        exact ih rest b hrow hcol hb hrest
      · rw [revealGo, if_neg hrev]
        obtain ⟨hpg, hpf⟩ := hl p (List.mem_cons_self p rest)
        have hb1 : StrongInv (doReveal b p) := doReveal_strongInv hb hpg hpf
        have hrest1 : ∀ q ∈ rest, q ∈ (doReveal b p).grid ∧
            ((doReveal b p).cells q).flagged = false := by
          intro q hq
          obtain ⟨h1, h2⟩ := hrest q hq
          exact ⟨h1, by rw [doReveal_flagged]; exact h2⟩
        by_cases hm : ((doReveal b p).cells p).mines = 0
        · rw [if_pos hm]
          refine ih (nbhdList rows cols p ++ rest) (doReveal b p) hrow hcol hb1 ?_
          intro q hq
          rcases List.mem_append.1 hq with hq | hq
          · have hqn : q ∈ nbhd rows cols p := mem_nbhdList.1 hq
            have hqn' : q ∈ (doReveal b p).nbhd p := by
              show q ∈ nbhd (doReveal b p).rows (doReveal b p).cols p
              rw [doReveal_rows, doReveal_cols, hrow, hcol]
              exact hqn
            refine ⟨?_, ?_⟩
            · show q ∈ gridOf (doReveal b p).rows (doReveal b p).cols
              rw [doReveal_rows, doReveal_cols, hrow, hcol]
              exact nbhd_subset_grid hqn
            · exact nbhd_unflagged_of_zero hb1.2.2.2.1 hb1.2.2.2.2 hpg hm q hqn'
          · exact hrest1 q hq
        · rw [if_neg hm]
          exact ih rest (doReveal b p) hrow hcol hb1 hrest1

theorem reveal_cell_strongInv {b : Board} {p : Coord} (hb : StrongInv b)
    (hp : p ∈ b.grid) (hfl : (b.cells p).flagged = false) :
    StrongInv (b.reveal_cell p) := by
  rw [Board.reveal_cell]
  have hb1 : StrongInv (doReveal b p) := doReveal_strongInv hb hp hfl
  by_cases hm : ((doReveal b p).cells p).mines = 0
  · rw [if_pos hm]
    refine revealGo_strongInv b.rows b.cols (revealFuel b.rows b.cols)
      (nbhdList b.rows b.cols p) (doReveal b p) rfl rfl hb1 ?_
    intro q hq
    have hqn : q ∈ nbhd b.rows b.cols p := mem_nbhdList.1 hq
    exact ⟨nbhd_subset_grid hqn,
      nbhd_unflagged_of_zero hb1.2.2.2.1 hb1.2.2.2.2 hp hm q hqn⟩
  · rw [if_neg hm]
    exact hb1

theorem revealGo_basicInv (rows cols : Nat) :
    ∀ fuel : Nat, ∀ l : List Coord, ∀ b : Board,
      b.rows = rows → b.cols = cols → BasicInv b →
      (∀ q ∈ l, q ∈ b.grid) →
      BasicInv (revealGo rows cols fuel b l) := by
  intro fuel
  induction fuel with
  | zero => intro l b _ _ hb _; exact hb
  | succ n ih =>
    intro l b hrow hcol hb hl
    cases l with
    | nil => exact hb
    | cons p rest =>
      have hrest : ∀ q ∈ rest, q ∈ b.grid := fun q hq => hl q (List.mem_cons_of_mem p hq)
      by_cases hrev : (b.cells p).revealed = true
      · rw [revealGo, if_pos hrev]
        exact ih rest b hrow hcol hb hrest
      · rw [revealGo, if_neg hrev]
        have hpg := hl p (List.mem_cons_self p rest)
        have hb1 : BasicInv (doReveal b p) := doReveal_basicInv hb hpg
        by_cases hm : ((doReveal b p).cells p).mines = 0
        · rw [if_pos hm]
          refine ih (nbhdList rows cols p ++ rest) (doReveal b p) hrow hcol hb1 ?_
          intro q hq
          rcases List.mem_append.1 hq with hq | hq
          · have hqn : q ∈ nbhd rows cols p := mem_nbhdList.1 hq
            show q ∈ gridOf (doReveal b p).rows (doReveal b p).cols
            rw [doReveal_rows, doReveal_cols, hrow, hcol]
            exact nbhd_subset_grid hqn
          · exact hrest q hq
        · rw [if_neg hm]
          exact ih rest (doReveal b p) hrow hcol hb1 hrest

theorem reveal_cell_basicInv {b : Board} {p : Coord} (hb : BasicInv b) (hp : p ∈ b.grid) :
    BasicInv (b.reveal_cell p) := by
  rw [Board.reveal_cell]
  have hb1 : BasicInv (doReveal b p) := doReveal_basicInv hb hp
  by_cases hm : ((doReveal b p).cells p).mines = 0
  · rw [if_pos hm]
    refine revealGo_basicInv b.rows b.cols (revealFuel b.rows b.cols)
      (nbhdList b.rows b.cols p) (doReveal b p) rfl rfl hb1 ?_
    intro q hq
    exact nbhd_subset_grid (mem_nbhdList.1 hq)
  · rw [if_neg hm]
    exact hb1

/-! ### Invariants of the remaining board operations -/

theorem flag_cell_basicInv {b : Board} {p : Coord} (hb : BasicInv b) (hp : p ∈ b.grid) :
    BasicInv (b.flag_cell p) := by
  obtain ⟨hcoh, hpart, ⟨hrg, hug, hfg⟩, hkn⟩ := hb
  refine ⟨?_, hpart, ⟨hrg, hug, ?_⟩, ?_⟩
  · intro q hq
    have hq' : q ∈ b.grid := hq
    refine ⟨?_, ?_⟩
    · rw [flag_cell_revealedS, flag_cell_revealed]
      exact (hcoh q hq').1
    · rw [flag_cell_flaggedS, flag_cell_flagged, Finset.mem_insert]
      by_cases hqp : q = p
      · simp [hqp]
      · rw [if_neg hqp]
        constructor
        · rintro (h | h)
          · exact absurd h hqp
          · exact (hcoh q hq').2.1 h
        · intro h
          exact Or.inr ((hcoh q hq').2.2 h)
  · rw [flag_cell_flaggedS]
    intro q hq
    rcases Finset.mem_insert.1 hq with rfl | hq
    · exact hp
    · exact hfg hq
  · intro q hq
    rw [flag_cell_known, flag_cell_revealed, flag_cell_flagged]
    by_cases hqp : q = p
    · simp [hqp]
    · rw [if_neg hqp, if_neg hqp]
      exact hkn q hq

theorem flag_cell_claimInv {b : Board} {p : Coord} (hcoh : Coh b) (hcl : ClaimInv b)
    (hp : p ∈ b.grid) (hrev : (b.cells p).revealed = false) :
    ClaimInv (b.flag_cell p) := by
  obtain ⟨⟨huni, hdis⟩, hfs, hnrf⟩ := hcl
  refine ⟨⟨huni, hdis⟩, ?_, ?_⟩
  · intro q hq
    rw [flag_cell_flaggedS] at hq
    rw [flag_cell_unrevealedS]
    rcases Finset.mem_insert.1 hq with rfl | hq
    · have hnotrev : q ∉ b.revealedS := by
        intro h
        have := (hcoh q hp).1.1 h
        rw [hrev] at this
        exact Bool.false_ne_true this
      have : q ∈ b.revealedS ∪ b.unrevealedS := huni ▸ hp
      rcases Finset.mem_union.1 this with h | h
      · exact absurd h hnotrev
      · exact h
    · exact hfs hq
  · intro q hq
    rw [flag_cell_revealed, flag_cell_flagged]
    by_cases hqp : q = p
    · subst hqp
      rw [hrev]
      rintro ⟨h, _⟩
      exact Bool.false_ne_true h
    · rw [if_neg hqp]
      exact hnrf q hq

theorem unflag_cell_claimInv {b : Board} {p : Coord} (hcl : ClaimInv b) :
    ClaimInv (b.unflag_cell p) := by
  obtain ⟨hpart, hfs, hnrf⟩ := hcl
  refine ⟨hpart, ?_, ?_⟩
  · intro q hq
    rw [unflag_cell_flaggedS] at hq
    rw [unflag_cell_unrevealedS]
    exact hfs (Finset.mem_of_mem_erase hq)
  · intro q hq
    rw [unflag_cell_revealed, unflag_cell_flagged]
    by_cases hqp : q = p
    · rw [if_pos hqp]
      rintro ⟨_, h⟩
      exact Bool.false_ne_true h
    · rw [if_neg hqp]
      exact hnrf q hq

/-- Transport of the claimed invariants along an operation that leaves the
three sets and the `revealed`/`flagged` bits of every cell unchanged. -/
theorem claimInv_transport (b b' : Board) (hrows : b'.rows = b.rows) (hcols : b'.cols = b.cols)
    (hrev : b'.revealedS = b.revealedS) (hunrev : b'.unrevealedS = b.unrevealedS)
    (hflag : b'.flaggedS = b.flaggedS)
    (hcr : ∀ q, (b'.cells q).revealed = (b.cells q).revealed)
    (hcf : ∀ q, (b'.cells q).flagged = (b.cells q).flagged)
    (hcl : ClaimInv b) : ClaimInv b' := by
  obtain ⟨⟨huni, hdis⟩, hfs, hnrf⟩ := hcl
  refine ⟨⟨?_, ?_⟩, ?_, ?_⟩
  · rw [hrev, hunrev, huni]
    show b.grid = b'.grid
    rw [Board.grid, Board.grid, hrows, hcols]
  · rw [hrev, hunrev]
    exact hdis
  · intro q hq
    rw [hflag] at hq
    rw [hunrev]
    exact hfs hq
  · intro q hq
    rw [hcr, hcf]
    apply hnrf
    show q ∈ b.grid
    rw [Board.grid, ← hrows, ← hcols]
    exact hq

theorem clearMines_claimInv {b : Board} {s : Finset Coord} (hcl : ClaimInv b) :
    ClaimInv (b.clearMines s) :=
  claimInv_transport b (b.clearMines s) rfl rfl rfl rfl rfl
    (clearMines_revealed b s) (clearMines_flagged b s) hcl

theorem placeSampled_claimInv {b : Board} {l : List Coord} (hcl : ClaimInv b) :
    ClaimInv (b.placeSampled l) := by
  obtain ⟨h1, h2, h3, h4, h5, h6⟩ := placeSampled_frame l b
  exact claimInv_transport b (b.placeSampled l) h1 h2 h3 h4 h5
    (fun q => (h6 q).1) (fun q => (h6 q).2.1) hcl

theorem reset_claimInv {b : Board} (hcoh : Coh b) (hcl : ClaimInv b) :
    ClaimInv b.reset := by
  obtain ⟨⟨huni, hdis⟩, hfs, hnrf⟩ := hcl
  have hrevfalse : ∀ q ∈ b.grid, (b.hide_all.cells q).revealed = false := by
    intro q hq
    rw [hide_all_revealed]
    by_cases h : q ∈ b.revealedS
    · rw [if_pos h]
    · rw [if_neg h]
      have := (hcoh q hq).1
      revert this h
      cases (b.cells q).revealed <;> simp
  rw [Board.reset]
  refine ⟨⟨?_, ?_⟩, ?_, ?_⟩
  · rw [unflag_all_revealedS, unflag_all_unrevealedS, hide_all_revealedS,
      hide_all_unrevealedS]
    rw [Finset.empty_union, Finset.union_comm]
    show b.revealedS ∪ b.unrevealedS = (b.hide_all.unflag_all).grid
    rw [huni]
    rfl
  · rw [unflag_all_revealedS, hide_all_revealedS]
    exact Finset.disjoint_empty_left _
  · intro q hq
    rw [unflag_all_flaggedS] at hq
    exact absurd hq (Finset.not_mem_empty q)
  · intro q hq
    rw [unflag_all_revealed]
    have : (b.hide_all.cells q).revealed = false := hrevfalse q hq
    rw [this]
    rintro ⟨h, _⟩
    exact Bool.false_ne_true h

/-! ### The unknown-cell measure -/

theorem ukSet_revealStep {b b' : Board} (h : RevealStep b b') : ukSet b' ⊆ ukSet b := by
  rw [ukSet, ukSet, h.2.2.2.1]
  exact Finset.sdiff_subset_sdiff h.2.2.2.2.1 (le_refl _)

theorem uk_reveal_le (b : Board) (p : Coord) : uk (b.reveal_cell p) ≤ uk b :=
  Finset.card_le_card (ukSet_revealStep (reveal_cell_revealStep b p))

theorem ukSet_flag (b : Board) (p : Coord) :
    ukSet (b.flag_cell p) = (ukSet b).erase p := by
  rw [ukSet, ukSet, flag_cell_unrevealedS, flag_cell_flaggedS, Finset.sdiff_insert]

theorem uk_flag_le (b : Board) (p : Coord) : uk (b.flag_cell p) ≤ uk b := by
  rw [uk, uk, ukSet_flag]
  exact Finset.card_le_card (Finset.erase_subset _ _)

theorem uk_flag_strict {b : Board} {p : Coord} (hp : p ∈ ukSet b) :
    uk (b.flag_cell p) < uk b := by
  rw [uk, uk, ukSet_flag]
  exact Finset.card_erase_lt_of_mem hp

theorem ukSet_doReveal (b : Board) (p : Coord) :
    ukSet (doReveal b p) = (ukSet b).erase p := by
  rw [ukSet, ukSet, doReveal_unrevealedS, doReveal_flaggedS, Finset.erase_sdiff_comm]

theorem uk_reveal_strict {b : Board} {p : Coord} (hp : p ∈ ukSet b) :
    uk (b.reveal_cell p) < uk b := by
  have hlt : uk (doReveal b p) < uk b := by
    rw [uk, uk, ukSet_doReveal]
    exact Finset.card_erase_lt_of_mem hp
  rw [Board.reveal_cell]
  by_cases hm : ((doReveal b p).cells p).mines = 0
  · rw [if_pos hm]
    exact lt_of_le_of_lt
      (Finset.card_le_card (ukSet_revealStep (revealGo_revealStep _ _ _ _ _))) hlt
  · rw [if_neg hm]
    exact hlt

theorem foldl_reveal_ukSet (l : List Coord) :
    ∀ b : Board, ukSet (l.foldl Board.reveal_cell b) ⊆ ukSet b := by
  induction l with
  | nil => intro b; rw [List.foldl_nil]
  | cons a tl ih =>
    intro b
    rw [List.foldl_cons]
    exact (ih _).trans (ukSet_revealStep (reveal_cell_revealStep b a))

theorem foldl_flag_ukSet (l : List Coord) :
    ∀ b : Board, ukSet (l.foldl Board.flag_cell b) ⊆ ukSet b := by
  induction l with
  | nil => intro b; rw [List.foldl_nil]
  | cons a tl ih =>
    intro b
    rw [List.foldl_cons]
    refine (ih _).trans ?_
    rw [ukSet_flag]
    exact Finset.erase_subset _ _

theorem foldl_reveal_rows (l : List Coord) :
    ∀ b : Board, (l.foldl Board.reveal_cell b).rows = b.rows ∧
      (l.foldl Board.reveal_cell b).cols = b.cols := by
  induction l with
  | nil => intro b; exact ⟨rfl, rfl⟩
  | cons a tl ih =>
    intro b
    rw [List.foldl_cons]
    obtain ⟨h1, h2⟩ := ih (b.reveal_cell a)
    exact ⟨h1.trans (reveal_cell_revealStep b a).1, h2.trans (reveal_cell_revealStep b a).2.1⟩

theorem foldl_flag_rows (l : List Coord) :
    ∀ b : Board, (l.foldl Board.flag_cell b).rows = b.rows ∧
      (l.foldl Board.flag_cell b).cols = b.cols := by
  induction l with
  | nil => intro b; exact ⟨rfl, rfl⟩
  | cons a tl ih =>
    intro b
    rw [List.foldl_cons]
    obtain ⟨h1, h2⟩ := ih ((b.flag_cell a))
    exact ⟨h1.trans rfl, h2.trans rfl⟩

theorem applySets_rows (b : Board) (r f : Finset Coord) :
    (applySets b r f).rows = b.rows ∧ (applySets b r f).cols = b.cols := by
  rw [applySets]
  obtain ⟨h1, h2⟩ := foldl_flag_rows _ ((listOf b.rows b.cols r).foldl Board.reveal_cell b)
  obtain ⟨h3, h4⟩ := foldl_reveal_rows (listOf b.rows b.cols r) b
  exact ⟨h1.trans h3, h2.trans h4⟩

theorem ukSet_applySets (b : Board) (r f : Finset Coord) :
    ukSet (applySets b r f) ⊆ ukSet b := by
  rw [applySets]
  exact (foldl_flag_ukSet _ _).trans (foldl_reveal_ukSet _ _)

theorem foldl_reveal_le (l : List Coord) :
    ∀ b : Board, uk (l.foldl Board.reveal_cell b) ≤ uk b := by
  intro b
  exact Finset.card_le_card (foldl_reveal_ukSet l b)

theorem foldl_flag_le (l : List Coord) :
    ∀ b : Board, uk (l.foldl Board.flag_cell b) ≤ uk b := by
  intro b
  exact Finset.card_le_card (foldl_flag_ukSet l b)

theorem listOf_ne_nil {rows cols : Nat} {s : Finset Coord} {q : Coord}
    (hq : q ∈ s) (hg : q ∈ gridOf rows cols) : listOf rows cols s ≠ [] := by
  intro h
  have : q ∈ listOf rows cols s := mem_listOf.2 ⟨mem_gridOf.1 hg, hq⟩
  rw [h] at this
  exact absurd this (List.not_mem_nil q)

theorem applySets_uk_lt {b : Board} {r f : Finset Coord}
    (hr : r ⊆ ukSet b) (hf : f ⊆ ukSet b) (hne : (r ∪ f).Nonempty)
    (hgrid : ukSet b ⊆ b.grid) : uk (applySets b r f) < uk b := by
  rw [applySets]
  by_cases hrne : r.Nonempty
  · obtain ⟨q, hq⟩ := hrne
    have hqg : q ∈ gridOf b.rows b.cols := hgrid (hr hq)
    cases hl : listOf b.rows b.cols r with
    | nil => exact absurd hl (listOf_ne_nil hq hqg)
    | cons a tl =>
      have ha : a ∈ r := by
        have : a ∈ listOf b.rows b.cols r := by rw [hl]; exact List.mem_cons_self a tl
        exact (mem_listOf.1 this).2
      calc uk ((listOf _ _ f).foldl Board.flag_cell ((a :: tl).foldl Board.reveal_cell b))
          ≤ uk ((a :: tl).foldl Board.reveal_cell b) := foldl_flag_le _ _
        _ = uk (tl.foldl Board.reveal_cell (b.reveal_cell a)) := by rw [List.foldl_cons]
        _ ≤ uk (b.reveal_cell a) := foldl_reveal_le _ _
        _ < uk b := uk_reveal_strict (hr ha)
  · have hre : r = ∅ := Finset.not_nonempty_iff_eq_empty.1 hrne
    subst hre
    have hfe : f.Nonempty := by
      rcases hne with ⟨q, hq⟩
      rcases Finset.mem_union.1 hq with h | h
      · exact absurd h (Finset.not_mem_empty q)
      · exact ⟨q, h⟩
    obtain ⟨q, hq⟩ := hfe
    rw [listOf_empty, List.foldl_nil]
    have hqg : q ∈ gridOf b.rows b.cols := hgrid (hf hq)
    cases hl : listOf b.rows b.cols f with
    | nil => exact absurd hl (listOf_ne_nil hq hqg)
    | cons a tl =>
      have ha : a ∈ f := by
        have : a ∈ listOf b.rows b.cols f := by rw [hl]; exact List.mem_cons_self a tl
        exact (mem_listOf.1 this).2
      calc uk ((a :: tl).foldl Board.flag_cell b)
          = uk (tl.foldl Board.flag_cell (b.flag_cell a)) := by rw [List.foldl_cons]
        _ ≤ uk (b.flag_cell a) := foldl_flag_le _ _
        _ < uk b := uk_flag_strict (hf ha)

theorem foldl_reveal_basicInv (l : List Coord) :
    ∀ b : Board, BasicInv b → (∀ q ∈ l, q ∈ gridOf b.rows b.cols) →
      BasicInv (l.foldl Board.reveal_cell b) := by
  induction l with
  | nil => intro b hb _; exact hb
  | cons a tl ih =>
    intro b hb hl
    rw [List.foldl_cons]
    refine ih _ (reveal_cell_basicInv hb (hl a (List.mem_cons_self a tl))) ?_
    intro q hq
    rw [(reveal_cell_revealStep b a).1, (reveal_cell_revealStep b a).2.1]
    exact hl q (List.mem_cons_of_mem a hq)

theorem foldl_flag_basicInv (l : List Coord) :
    ∀ b : Board, BasicInv b → (∀ q ∈ l, q ∈ gridOf b.rows b.cols) →
      BasicInv (l.foldl Board.flag_cell b) := by
  induction l with
  | nil => intro b hb _; exact hb
  | cons a tl ih =>
    intro b hb hl
    rw [List.foldl_cons]
    refine ih _ (flag_cell_basicInv hb (hl a (List.mem_cons_self a tl))) ?_
    intro q hq
    exact hl q (List.mem_cons_of_mem a hq)

theorem applySets_basicInv {b : Board} (r f : Finset Coord) (hb : BasicInv b) :
    BasicInv (applySets b r f) := by
  rw [applySets]
  have h1 : BasicInv ((listOf b.rows b.cols r).foldl Board.reveal_cell b) :=
    foldl_reveal_basicInv _ b hb fun q hq => by
      rcases mem_listOf.1 hq with ⟨hb', _⟩
      exact mem_gridOf.2 hb'
  refine foldl_flag_basicInv _ _ h1 fun q hq => ?_
  rcases mem_listOf.1 hq with ⟨hb', _⟩
  exact mem_gridOf.2 hb'

/-! ### Cluster cells stay inside the unknown cells -/

theorem unknownNbrs_subset_ukSet {b : Board} (hb : BasicInv b) (p : Coord) :
    unknownNbrs b p ⊆ ukSet b := by
  obtain ⟨hcoh, ⟨huni, hdis⟩, _, hkn⟩ := hb
  intro q hq
  obtain ⟨hqn, hqk⟩ := Finset.mem_filter.1 hq
  have hqg : q ∈ b.grid := nbhd_subset_grid hqn
  have hrf := hkn q hqg
  rw [hqk] at hrf
  have hrev : (b.cells q).revealed = false := by
    revert hrf; cases (b.cells q).revealed <;> simp
  have hfl : (b.cells q).flagged = false := by
    revert hrf; cases (b.cells q).flagged <;> simp
  have hnr : q ∉ b.revealedS := by
    intro h
    have := (hcoh q hqg).1.1 h
    rw [hrev] at this
    exact Bool.false_ne_true this
  have hnf : q ∉ b.flaggedS := by
    intro h
    have := (hcoh q hqg).2.1 h
    rw [hfl] at this
    exact Bool.false_ne_true this
  have hun : q ∈ b.unrevealedS := by
    have : q ∈ b.revealedS ∪ b.unrevealedS := huni ▸ hqg
    rcases Finset.mem_union.1 this with h | h
    · exact absurd h hnr
    · exact h
  exact Finset.mem_sdiff.2 ⟨hun, hnf⟩

theorem buildClusters_subset {b : Board} (hb : BasicInv b) :
    ∀ cl ∈ buildClusters b, cl.cells ⊆ ukSet b := by
  intro cl hcl
  rw [buildClusters, List.mem_filterMap] at hcl
  obtain ⟨p, _, hp⟩ := hcl
  by_cases hu : unknownNbrs b p = ∅
  · rw [if_pos hu] at hp
    exact absurd hp (Option.noConfusion)
  · rw [if_neg hu] at hp
    have := Option.some.inj hp
    rw [← this]
    exact unknownNbrs_subset_ukSet hb p

theorem getD_cells_subset {store : List Cluster} {u : Finset Coord}
    (h : ∀ cl ∈ store, cl.cells ⊆ u) (i : Nat) :
    (store.getD i defaultCluster).cells ⊆ u := by
  by_cases hi : i < store.length
  · rw [List.getD_eq_getElem store defaultCluster hi]
    exact h _ (List.getElem_mem hi)
  · rw [List.getD_eq_default store defaultCluster (le_of_not_lt hi)]
    exact Finset.empty_subset u

theorem subtractNbrs_subset (cur : List Cluster) :
    ∀ (nbrs : List Nat) (acc : Cluster × Bool),
      (subtractNbrs cur nbrs acc).1.cells ⊆ acc.1.cells := by
  intro nbrs
  induction nbrs with
  | nil => intro acc; rw [subtractNbrs, List.foldl_nil]
  | cons j rest ih =>
    intro acc
    rw [subtractNbrs, List.foldl_cons]
    refine Finset.Subset.trans (ih _) ?_
    by_cases h : (cur.getD j defaultCluster).cells ⊂ acc.1.cells
    · simp only [if_pos h]
      exact Finset.sdiff_subset
    · simp only [if_neg h]
      exact Finset.Subset.refl _

/-- Invariant carried through a refactoring pass: all stored cluster cells
and the accumulated deduction sets stay inside `u`. -/
theorem passStep_inv {snapshot : List Cluster} {aliveIn : List Nat} {u : Finset Coord}
    {st : PassState} {i : Nat}
    (hs : ∀ cl ∈ st.store, cl.cells ⊆ u) (hr : st.toR ⊆ u) (hf : st.toF ⊆ u) :
    (∀ cl ∈ (passStep snapshot aliveIn st i).store, cl.cells ⊆ u) ∧
      (passStep snapshot aliveIn st i).toR ⊆ u ∧
      (passStep snapshot aliveIn st i).toF ⊆ u := by
  rw [passStep]
  have hcl : (st.store.getD i defaultCluster).cells ⊆ u := getD_cells_subset hs i
  by_cases h0 : (st.store.getD i defaultCluster).mines = 0
  · rw [if_pos h0]
    exact ⟨hs, Finset.union_subset hr hcl, hf⟩
  · rw [if_neg h0]
    by_cases h1 : (st.store.getD i defaultCluster).mines =
        ((st.store.getD i defaultCluster).cells.card : Int)
    · rw [if_pos h1]
      exact ⟨hs, hr, Finset.union_subset hf hcl⟩
    · rw [if_neg h1]
      have hacc : (subtractNbrs st.store (nbrIdsIn snapshot aliveIn
          (st.store.getD i defaultCluster).cells)
          (st.store.getD i defaultCluster, st.changed)).1.cells ⊆ u :=
        (subtractNbrs_subset _ _ _).trans hcl
      have hset : ∀ cl ∈ st.store.set i (subtractNbrs st.store (nbrIdsIn snapshot aliveIn
          (st.store.getD i defaultCluster).cells)
          (st.store.getD i defaultCluster, st.changed)).1, cl.cells ⊆ u := by
        intro cl hm
        rcases List.mem_or_eq_of_mem_set hm with hm | hm
        · exact hs cl hm
        · rw [hm]
          exact hacc
      by_cases h2 : (subtractNbrs st.store (nbrIdsIn snapshot aliveIn
          (st.store.getD i defaultCluster).cells)
          (st.store.getD i defaultCluster, st.changed)).1.cells = ∅
      · rw [if_pos h2]
        exact ⟨hset, hr, hf⟩
      · rw [if_neg h2]
        exact ⟨hset, hr, hf⟩

theorem foldl_passStep_inv (snapshot : List Cluster) (aliveIn : List Nat) (u : Finset Coord) :
    ∀ (l : List Nat) (st : PassState),
      (∀ cl ∈ st.store, cl.cells ⊆ u) → st.toR ⊆ u → st.toF ⊆ u →
      (∀ cl ∈ (l.foldl (passStep snapshot aliveIn) st).store, cl.cells ⊆ u) ∧
        (l.foldl (passStep snapshot aliveIn) st).toR ⊆ u ∧
        (l.foldl (passStep snapshot aliveIn) st).toF ⊆ u := by
  intro l
  induction l with
  | nil => intro st hs hr hf; exact ⟨hs, hr, hf⟩
  | cons i rest ih =>
    intro st hs hr hf
    rw [List.foldl_cons]
    obtain ⟨hs', hr', hf'⟩ := passStep_inv (u := u) hs hr hf
    exact ih _ hs' hr' hf'

theorem refactorLoop_inv (u : Finset Coord) :
    ∀ (fuel : Nat) (store : List Cluster) (alive : List Nat) (toR toF : Finset Coord),
      (∀ cl ∈ store, cl.cells ⊆ u) → toR ⊆ u → toF ⊆ u →
      (∀ cl ∈ (refactorLoop fuel store alive toR toF).1, cl.cells ⊆ u) ∧
        (refactorLoop fuel store alive toR toF).2.2.1 ⊆ u ∧
        (refactorLoop fuel store alive toR toF).2.2.2 ⊆ u := by
  intro fuel
  induction fuel with
  | zero => intro store alive toR toF hs hr hf; exact ⟨hs, hr, hf⟩
  | succ n ih =>
    intro store alive toR toF hs hr hf
    rw [refactorLoop]
    obtain ⟨hs', hr', hf'⟩ :=
      foldl_passStep_inv store alive u alive
        { store := store, kept := [], toR := toR, toF := toF, changed := false } hs hr hf
    rw [refactorPass] at *
    by_cases hch : (alive.foldl (passStep store alive)
        { store := store, kept := [], toR := toR, toF := toF, changed := false }).changed = true
    · rw [if_pos hch]
      exact ih _ _ _ _ hs' hr' hf'
    · rw [if_neg hch]
      exact ⟨hs', hr', hf'⟩

theorem combToFlag_subset {b : Board} (hb : BasicInv b) (cls : List Cluster) :
    combToFlag b cls ⊆ ukSet b := by
  intro x hx
  rw [combToFlag] at hx
  obtain ⟨p, _, hx⟩ := Finset.mem_biUnion.1 hx
  obtain ⟨s, _, hx⟩ := Finset.mem_biUnion.1 hx
  by_cases hc : condFlag b cls p s
  · rw [if_pos hc] at hx
    exact unknownNbrs_subset_ukSet hb p (Finset.mem_sdiff.1 hx).1
  · rw [if_neg hc] at hx
    exact absurd hx (Finset.not_mem_empty x)

theorem combToReveal_subset {b : Board} (hb : BasicInv b) (cls : List Cluster) :
    combToReveal b cls ⊆ ukSet b := by
  intro x hx
  rw [combToReveal] at hx
  obtain ⟨p, _, hx⟩ := Finset.mem_biUnion.1 hx
  obtain ⟨s, _, hx⟩ := Finset.mem_biUnion.1 hx
  by_cases hc : ¬condFlag b cls p s ∧ condReveal b cls p s
  · rw [if_pos hc] at hx
    exact unknownNbrs_subset_ukSet hb p (Finset.mem_sdiff.1 hx).1
  · rw [if_neg hc] at hx
    exact absurd hx (Finset.not_mem_empty x)

/-- Whatever a progressing round decides to act on consists of cells that
were unknown when the round started, and there is at least one of them. -/
theorem roundOutcome_some_spec {b : Board} (hb : BasicInv b) {r f : Finset Coord}
    (h : (roundOutcome b).1 = some (r, f)) :
    r ⊆ ukSet b ∧ f ⊆ ukSet b ∧ (r ∪ f).Nonempty := by
  rw [roundOutcome] at h
  have hcls0 : ∀ cl ∈ buildClusters b, cl.cells ⊆ ukSet b := buildClusters_subset hb
  obtain ⟨hstore, htr0, htf0⟩ :=
    refactorLoop_inv (ukSet b) ((List.map (fun c => c.cells.card) (buildClusters b)).sum + 1)
      (buildClusters b) (List.range (buildClusters b).length) ∅ ∅ hcls0
      (Finset.empty_subset _) (Finset.empty_subset _)
  set rr := refactorLoop ((List.map (fun c => c.cells.card) (buildClusters b)).sum + 1)
      (buildClusters b) (List.range (buildClusters b).length) ∅ ∅ with hrr
  have hcls : ∀ cl ∈ rr.2.1.map fun i => rr.1.getD i defaultCluster, cl.cells ⊆ ukSet b := by
    intro cl hcl
    obtain ⟨i, _, hi⟩ := List.mem_map.1 hcl
    rw [← hi]
    exact getD_cells_subset hstore i
  set cls := rr.2.1.map fun i => rr.1.getD i defaultCluster with hclsdef
  have htr : rr.2.2.1 ∪ combToReveal b cls ⊆ ukSet b :=
    Finset.union_subset htr0 (combToReveal_subset hb cls)
  have htf : rr.2.2.2 ∪ combToFlag b cls ⊆ ukSet b :=
    Finset.union_subset htf0 (combToFlag_subset hb cls)
  by_cases hemp : rr.2.2.1 ∪ combToReveal b cls = ∅ ∧ rr.2.2.2 ∪ combToFlag b cls = ∅
  · rw [if_pos hemp] at h
    rw [fallbackStep] at h
    simp only at h
    by_cases h1 : b.unrevealedS \ b.flaggedS = ∅
    · rw [if_pos h1] at h
      exact absurd h (Option.noConfusion)
    · rw [if_neg h1] at h
      have hne : (ukSet b).Nonempty := Finset.nonempty_iff_ne_empty.2 h1
      by_cases h2 : b.unflagged = 0
      · rw [if_pos h2] at h
        obtain ⟨hr, hf⟩ := Prod.mk.injEq .. ▸ Option.some.inj h
        rw [← hr, ← hf]
        refine ⟨fun _ hx => hx, Finset.empty_subset _, ?_⟩
        rw [Finset.union_empty]
        exact hne
      · rw [if_neg h2] at h
        by_cases h3 : (((b.unrevealedS \ b.flaggedS).card : Int)) = b.unflagged
        · rw [if_pos h3] at h
          obtain ⟨hr, hf⟩ := Prod.mk.injEq .. ▸ Option.some.inj h
          rw [← hr, ← hf]
          refine ⟨Finset.empty_subset _, fun _ hx => hx, ?_⟩
          rw [Finset.empty_union]
          exact hne
        · rw [if_neg h3] at h
          by_cases h4 : clustersMinesSum cls = b.unflagged
          · rw [if_pos h4] at h
            by_cases h5 : (b.unrevealedS \ b.flaggedS) \ allClusterCells cls = ∅
            · rw [if_pos h5] at h
              exact absurd h (Option.noConfusion)
            · rw [if_neg h5] at h
              obtain ⟨hr, hf⟩ := Prod.mk.injEq .. ▸ Option.some.inj h
              rw [← hr, ← hf]
              refine ⟨Finset.sdiff_subset, Finset.empty_subset _, ?_⟩
              rw [Finset.union_empty]
              exact Finset.nonempty_iff_ne_empty.2 h5
          · rw [if_neg h4] at h
            exact absurd h (Option.noConfusion)
  · rw [if_neg hemp] at h
    obtain ⟨hr, hf⟩ := Prod.mk.injEq .. ▸ Option.some.inj h
    rw [← hr, ← hf]
    refine ⟨htr, htf, ?_⟩
    rcases not_and_or.1 hemp with h' | h'
    · obtain ⟨x, hx⟩ := Finset.nonempty_iff_ne_empty.2 h'
      exact ⟨x, Finset.mem_union.2 (Or.inl hx)⟩
    · obtain ⟨x, hx⟩ := Finset.nonempty_iff_ne_empty.2 h'
      exact ⟨x, Finset.mem_union.2 (Or.inr hx)⟩

/-! ### Progressing rounds strictly shrink the unknown set -/

theorem propagate_true_spec {b : Board} (hb : BasicInv b) (ht : (propagate b).1 = true) :
    uk (propagate b).2 < uk b ∧ BasicInv (propagate b).2 ∧
      ((propagate b).2.revealedS ≠ b.revealedS ∨ (propagate b).2.flaggedS ≠ b.flaggedS) := by
  cases hro : (roundOutcome b).1 with
  | none =>
    rw [propagate, hro] at ht
    exact absurd ht (by simp)
  | some rf =>
    obtain ⟨r, f⟩ := rf
    have hps : propagate b = (true, applySets b r f) := by rw [propagate, hro]
    rw [hps]
    obtain ⟨hr, hf, hne⟩ := roundOutcome_some_spec hb hro
    have hgrid : ukSet b ⊆ b.grid := fun q hq => hb.2.2.1.2.1 (Finset.mem_sdiff.1 hq).1
    have hlt : uk (applySets b r f) < uk b := applySets_uk_lt hr hf hne hgrid
    have hbi : BasicInv (applySets b r f) := applySets_basicInv r f hb
    refine ⟨hlt, hbi, ?_⟩
    have hsub : ukSet (applySets b r f) ⊆ ukSet b := ukSet_applySets b r f
    have hss : ukSet (applySets b r f) ⊂ ukSet b := by
      refine Finset.ssubset_iff_subset_ne.2 ⟨hsub, ?_⟩
      intro he
      rw [uk, uk, he] at hlt
      exact lt_irrefl _ hlt
    obtain ⟨p, hpm, hpn⟩ := Finset.exists_of_ssubset hss
    obtain ⟨hpu, hpf0⟩ := Finset.mem_sdiff.1 hpm
    by_cases hpf : p ∈ (applySets b r f).flaggedS
    · exact Or.inr fun he => hpf0 (he ▸ hpf)
    · have hpu' : p ∉ (applySets b r f).unrevealedS := fun hu =>
        hpn (Finset.mem_sdiff.2 ⟨hu, hpf⟩)
      have hg : (applySets b r f).grid = b.grid := by
        rw [Board.grid, (applySets_rows b r f).1, (applySets_rows b r f).2]
        rfl
      have hpg : p ∈ (applySets b r f).grid := by
        rw [hg]
        exact hb.2.2.1.2.1 hpu
      have hprev : p ∈ (applySets b r f).revealedS := by
        have := hbi.2.1.1 ▸ hpg
        rcases Finset.mem_union.1 this with h | h
        · exact h
        · exact absurd h hpu'
      have hnrev : p ∉ b.revealedS := fun h =>
        Finset.disjoint_left.1 hb.2.1.2 h hpu
      exact Or.inl fun he => hnrev (he ▸ hprev)

theorem propagate_basicInv {b : Board} (hb : BasicInv b) : BasicInv (propagate b).2 := by
  cases hro : (roundOutcome b).1 with
  | none => rw [propagate, hro]; exact hb
  | some rf =>
    obtain ⟨r, f⟩ := rf
    rw [propagate, hro]
    exact applySets_basicInv r f hb

theorem stalls_of_le : ∀ (n : Nat) (b : Board), BasicInv b → uk b ≤ n → stalls n b = true := by
  intro n
  induction n with
  | zero =>
    intro b hb hle
    rw [stalls]
    cases ht : (propagate b).1
    · rfl
    · exfalso
      have := (propagate_true_spec hb ht).1
      omega
  | succ n ih =>
    intro b hb hle
    rw [stalls]
    cases ht : (propagate b).1
    · rfl
    · have hspec := propagate_true_spec hb ht
      have h2 : stalls n (propagate b).2 = true := by
        refine ih _ hspec.2.1 ?_
        have := hspec.1
        omega
      rw [h2]
      exact Bool.or_true _

/-! ## Claim theorems -/

/-- Claim C1 (code bug): on the fully consistent, reachable 3×4 board
`c1b` (cell mine-counts agree with the ground truth, no flags), the final
fallback of `propagate_known_values` sums the mine counts of two
*overlapping* clusters (1 + 1 = 2 = unflagged counter), concludes that
every hidden cell outside the clusters is safe, and places the actual mine
(2,0) in the round's reveal set; the round then reveals it.  This refutes
the claimed soundness of the deduction engine: the subset-subtraction step
is sound, but the sum-of-clusters fallback double-counts shared cells. -/
theorem C1_fallback_reveals_mine_on_consistent_board :
    MinesOK c1b ∧ FlagsMine c1b ∧ ClaimInv c1b ∧
      (c1b.cells (2, 0)).is_mine = true ∧
      (2, 0) ∈ roundToReveal c1b ∧
      ((propagate c1b).2.cells (2, 0)).revealed = true := by
  decide

/-- Claim C2, counterexample: flagging the mine-free cell (0,1) of a 1×2
board and then revealing (0,0) (a zero-count cell) floods onto the flagged
cell: afterwards (0,1) is simultaneously revealed and flagged, and the
flagged set is no longer contained in the unrevealed set - the claimed
invariants are not preserved by a flood over a flagged cell. -/
theorem C2_flood_reveals_flagged_cell :
    ((c2b.cells (0, 1)).revealed = true ∧ (c2b.cells (0, 1)).flagged = true) ∧
      ¬ FlagSub c2b := by
  decide

/-- Claim C2 (amended): the revealed/unrevealed partition, `flagged ⊆
unrevealed` and "never simultaneously revealed and flagged" are preserved
by `flag_cell` (on an unrevealed grid cell), `unflag_cell`, `place_mines`
(both phases, hence also its failure state) and `reset`; `reveal_cell`
preserves them provided its argument is an unflagged grid cell, every
flagged cell is an actual mine and the per-cell mine counts agree with the
ground truth (which precludes flagged cells in any zero-cell's flood, the
situation of the counterexample). -/
theorem C2_board_ops_preserve_invariants :
    ∀ b : Board, BasicInv b → ClaimInv b →
      (∀ p ∈ b.grid, (b.cells p).flagged = false → MinesOK b → FlagsMine b →
        ClaimInv (b.reveal_cell p)) ∧
      (∀ p ∈ b.grid, (b.cells p).revealed = false → ClaimInv (b.flag_cell p)) ∧
      (∀ p : Coord, ClaimInv (b.unflag_cell p)) ∧
      (∀ perim : Finset Coord, ∀ sampled : List Coord,
        ClaimInv ((b.clearMines perim).placeSampled sampled)) ∧
      ClaimInv b.reset := by
  intro b hb hcl
  refine ⟨?_, ?_, ?_, ?_, ?_⟩
  · intro p hp hf hmo hfm
    have hs : StrongInv b := ⟨hb, hcl.2.1, hcl.2.2, hmo, hfm⟩
    have h := reveal_cell_strongInv hs hp hf
    exact ⟨h.1.2.1, h.2.1, h.2.2.1⟩
  · intro p hp hrev
    exact flag_cell_claimInv hb.1 hcl hp hrev
  · intro p
    exact unflag_cell_claimInv hcl
  · intro perim sampled
    exact placeSampled_claimInv (clearMines_claimInv hcl)
  · exact reset_claimInv hb.1 hcl

/-- Claim C2, witness: the amended preservation theorem applied to the
concrete consistent 1×2 board `w2b` with a mine at (0,1). -/
theorem C2_board_ops_preserve_invariants_witness :
    BasicInv w2b ∧ ClaimInv w2b ∧
      ClaimInv (w2b.reveal_cell (0, 0)) ∧ ClaimInv (w2b.flag_cell (0, 1)) ∧
      ClaimInv (w2b.unflag_cell (0, 1)) ∧
      ClaimInv ((w2b.clearMines {(0, 1)}).placeSampled []) ∧
      ClaimInv w2b.reset :=
  ⟨by decide, by decide,
    (C2_board_ops_preserve_invariants w2b (by decide) (by decide)).1 (0, 0)
      (by decide) (by decide) (by decide) (by decide),
    (C2_board_ops_preserve_invariants w2b (by decide) (by decide)).2.1 (0, 1)
      (by decide) (by decide),
    (C2_board_ops_preserve_invariants w2b (by decide) (by decide)).2.2.1 (0, 1),
    (C2_board_ops_preserve_invariants w2b (by decide) (by decide)).2.2.2.1 {(0, 1)} [],
    (C2_board_ops_preserve_invariants w2b (by decide) (by decide)).2.2.2.2⟩

/-- Claim C3, counterexample: with a mine already at (0,0) of a 1×3 board,
`place_mines({(0,0),(0,1)}, 3)` fails (3 > 2 eligible cells), but at the
raise point the clearing loop has already removed the mine at (0,0) — the
failure is not atomic. -/
theorem C3_place_mines_clears_before_failing :
    isErr (c3b.place_mines {(0, 0), (0, 1)} 3 []) = true ∧
      (c3b.cells (0, 0)).is_mine = true ∧
      failMineAt (c3b.place_mines {(0, 0), (0, 1)} 3 []) (0, 0) = false := by
  decide

/-- Claim C3 (amended): `place_mines(eligibleCells, count)` fails whenever
`count > |eligibleCells|` (Python's `random.sample` raises `ValueError`),
but the failure is not atomic: the state observable at the raise point is
the board with every mine inside `eligibleCells` already cleared.  Cells
outside `eligibleCells` keep their `isMine` flag, and the call is atomic
exactly when `eligibleCells` contained no mine. -/
theorem C3_place_mines_insufficient (b : Board) (perim : Finset Coord) (n : Nat)
    (sampled : List Coord) (h : (b.eligible perim).card < n) :
    b.place_mines perim n sampled =
        Except.error (PlaceErr.insufficientCells, b.clearMines perim) ∧
      (∀ p : Coord, p ∉ perim →
        ((b.clearMines perim).cells p).is_mine = (b.cells p).is_mine) ∧
      ((∀ p ∈ perim, (b.cells p).is_mine = false) → b.clearMines perim = b) := by
  refine ⟨?_, ?_, ?_⟩
  · rw [Board.place_mines]
    rw [if_pos h]
  · intro p hp
    exact clearMines_is_mine_off hp
  · intro hnone
    have hmined : (b.eligible perim).filter (fun q => (b.cells q).is_mine = true) = ∅ := by
      rw [Finset.filter_eq_empty_iff]
      intro q hq
      have := hnone q (Finset.mem_filter.1 hq).2
      rw [this]
      exact Bool.false_ne_true
    have hcells : (fun q =>
        let c := b.cells q
        let c1 := if q ∈ (b.eligible perim).filter (fun r => (b.cells r).is_mine = true) then
          { c with is_mine := false } else c
        { c1 with mines := c1.mines -
          ((((b.eligible perim).filter fun r => (b.cells r).is_mine = true) ∩
            b.nbhd q).card : Int) }) = b.cells := by
      funext q
      rw [hmined]
      simp
    rw [Board.clearMines]
    show { b with cells := _ } = b
    rw [hcells]

/-- Claim C3, witness: the amended theorem at a concrete mine-free 1×2
board, perimeter `{(0,1)}`, count 2. -/
theorem C3_place_mines_insufficient_witness :
    ((Board.init 1 2 1).eligible {(0, 1)}).card < 2 ∧
      (Board.init 1 2 1).place_mines {(0, 1)} 2 [] =
        Except.error (PlaceErr.insufficientCells, (Board.init 1 2 1).clearMines {(0, 1)}) ∧
      (((Board.init 1 2 1).clearMines {(0, 1)}).cells (0, 0)).is_mine =
        ((Board.init 1 2 1).cells (0, 0)).is_mine ∧
      (Board.init 1 2 1).clearMines {(0, 1)} = Board.init 1 2 1 :=
  ⟨by decide,
    (C3_place_mines_insufficient (Board.init 1 2 1) {(0, 1)} 2 [] (by decide)).1,
    (C3_place_mines_insufficient (Board.init 1 2 1) {(0, 1)} 2 [] (by decide)).2.1 (0, 0)
      (by decide),
    (C3_place_mines_insufficient (Board.init 1 2 1) {(0, 1)} 2 [] (by decide)).2.2
      (by decide)⟩

/-- Claim C4, counterexample: `reveal_cell` called on the flagged cell
(0,1) performs the reveal instead of failing with AlreadyRevealed — the
source contains no guard at all. -/
theorem C4_reveal_cell_performs_reveal_on_flagged :
    (c4b.cells (0, 1)).flagged = true ∧
      ((c4b.reveal_cell (0, 1)).cells (0, 1)).revealed = true ∧
      ((((Board.init 1 2 0).reveal_cell (0, 0)).reveal_cell (0, 0)).cells (0, 0)).revealed
        = true := by
  decide

/-- Claim C4 (amended): `reveal_cell` performs no validity check and never
signals AlreadyRevealed: it reveals its argument unconditionally — already
revealed or flagged alike — leaving the flag bit untouched. -/
theorem C4_reveal_cell_unconditional :
    ∀ (b : Board) (p : Coord),
      ((b.reveal_cell p).cells p).revealed = true ∧
        ((b.reveal_cell p).cells p).flagged = (b.cells p).flagged :=
  fun b p => ⟨reveal_cell_revealed_self b p, reveal_cell_flagged b p p⟩

/-- Claim C5 (confirmed): a cell is flagged by the combination pass
exactly when some revealed cell and some non-empty, pairwise cell-disjoint
combination of clusters overlapping its unknown neighbours satisfy
`coveredMines < remaining` with exactly `remaining - coveredMines`
uncovered unknown neighbours, the cell being one of them; and it is
revealed by the pass exactly when the combination's cells are a strict
subset of the unknown neighbours with `coveredMines = remaining`, the cell
being an uncovered unknown neighbour. -/
theorem C5_combination_pass_characterization :
    ∀ (b : Board) (cls : List Cluster) (x : Coord),
      (x ∈ combToFlag b cls ↔ ∃ p ∈ b.revealedS,
        ∃ s ∈ validCombos cls (unknownNbrs b p),
          combMines cls s < remOf b p ∧
          ((unknownNbrs b p \ combCells cls s).card : Int) = remOf b p - combMines cls s ∧
          x ∈ unknownNbrs b p \ combCells cls s) ∧
      (x ∈ combToReveal b cls ↔ ∃ p ∈ b.revealedS,
        ∃ s ∈ validCombos cls (unknownNbrs b p),
          combCells cls s ⊂ unknownNbrs b p ∧ combMines cls s = remOf b p ∧
          x ∈ unknownNbrs b p \ combCells cls s) := by
  intro b cls x
  constructor
  · rw [combToFlag]
    constructor
    · intro hx
      obtain ⟨p, hp, hx⟩ := Finset.mem_biUnion.1 hx
      obtain ⟨s, hs, hx⟩ := Finset.mem_biUnion.1 hx
      by_cases hc : condFlag b cls p s
      · rw [if_pos hc] at hx
        exact ⟨p, hp, s, hs, hc.1, hc.2, hx⟩
      · rw [if_neg hc] at hx
        exact absurd hx (Finset.not_mem_empty x)
    · rintro ⟨p, hp, s, hs, h1, h2, hx⟩
      refine Finset.mem_biUnion.2 ⟨p, hp, Finset.mem_biUnion.2 ⟨s, hs, ?_⟩⟩
      have hc : condFlag b cls p s := ⟨h1, h2⟩
      rw [if_pos hc]
      exact hx
  · rw [combToReveal]
    constructor
    · intro hx
      obtain ⟨p, hp, hx⟩ := Finset.mem_biUnion.1 hx
      obtain ⟨s, hs, hx⟩ := Finset.mem_biUnion.1 hx
      by_cases hc : ¬condFlag b cls p s ∧ condReveal b cls p s
      · rw [if_pos hc] at hx
        exact ⟨p, hp, s, hs, hc.2.1, hc.2.2, hx⟩
      · rw [if_neg hc] at hx
        exact absurd hx (Finset.not_mem_empty x)
    · rintro ⟨p, hp, s, hs, h1, h2, hx⟩
      refine Finset.mem_biUnion.2 ⟨p, hp, Finset.mem_biUnion.2 ⟨s, hs, ?_⟩⟩
      have hnf : ¬condFlag b cls p s := by
        rintro ⟨hlt, _⟩
        rw [h2] at hlt
        exact lt_irrefl _ hlt
      have hcr : condReveal b cls p s := ⟨h1, h2⟩
      have hc : ¬condFlag b cls p s ∧ condReveal b cls p s := ⟨hnf, hcr⟩
      rw [if_pos hc]
      exact hx

/-- Claim C6, counterexample: on `c6b` the tile and combination passes
yield nothing, hidden non-flagged cells remain, the counter cases (i) and
(ii) do not apply, and the sum-of-clusters condition of rule (iii) *does*
hold — yet the round reports no progress, because every hidden cell lies
inside a cluster and rule (iii) has nothing to mark.  This refutes "only
when none of these applies does the round report no progress". -/
theorem C6_rule_iii_applies_without_progress :
    (roundOutcome c6b).1 = none ∧ ukSet c6b ≠ ∅ ∧
      c6b.unflagged ≠ 0 ∧ ((ukSet c6b).card : Int) ≠ c6b.unflagged ∧
      clustersMinesSum (roundClusters c6b) = c6b.unflagged ∧
      (propagate c6b).1 = false := by
  decide

/-- Claim C6 (amended): when the passes yield nothing and hidden
non-flagged cells remain: (i) a zero unflagged-counter marks every unknown
cell safe; (ii) otherwise, unknown-count equal to the counter marks every
unknown cell a mine; (iii) otherwise, if the clusters' mine-count sum
equals the counter, the unknown cells outside all clusters are marked safe
— and the round reports no progress exactly when no rule marks any cell,
which includes the case that rule (iii)'s condition holds but every
unknown cell lies inside a cluster. -/
theorem C6_fallback_characterization :
    ∀ (b : Board) (cls : List Cluster), ukSet b ≠ ∅ →
      (b.unflagged = 0 → fallbackStep b cls = some (ukSet b, ∅)) ∧
      (b.unflagged ≠ 0 → ((ukSet b).card : Int) = b.unflagged →
        fallbackStep b cls = some (∅, ukSet b)) ∧
      (b.unflagged ≠ 0 → ((ukSet b).card : Int) ≠ b.unflagged →
        clustersMinesSum cls = b.unflagged →
        (ukSet b \ allClusterCells cls ≠ ∅ →
          fallbackStep b cls = some (ukSet b \ allClusterCells cls, ∅)) ∧
        (ukSet b \ allClusterCells cls = ∅ → fallbackStep b cls = none)) ∧
      (b.unflagged ≠ 0 → ((ukSet b).card : Int) ≠ b.unflagged →
        clustersMinesSum cls ≠ b.unflagged → fallbackStep b cls = none) := by
  intro b cls hne
  have he : fallbackStep b cls =
      if b.unrevealedS \ b.flaggedS = ∅ then none
      else if b.unflagged = 0 then some (b.unrevealedS \ b.flaggedS, ∅)
      else if ((b.unrevealedS \ b.flaggedS).card : Int) = b.unflagged then
        some (∅, b.unrevealedS \ b.flaggedS)
      else if clustersMinesSum cls = b.unflagged then
        if (b.unrevealedS \ b.flaggedS) \ allClusterCells cls = ∅ then none
        else some ((b.unrevealedS \ b.flaggedS) \ allClusterCells cls, ∅)
      else none := rfl
  have hne' : ¬(b.unrevealedS \ b.flaggedS = ∅) := hne
  refine ⟨?_, ?_, ?_, ?_⟩
  · intro h0
    rw [he, if_neg hne', if_pos h0]
    exact rfl
  · intro h0 hcard
    have hcard' : ((b.unrevealedS \ b.flaggedS).card : Int) = b.unflagged := hcard
    rw [he, if_neg hne', if_neg h0, if_pos hcard']
    exact rfl
  · intro h0 hcard hsum
    have hcard' : ¬(((b.unrevealedS \ b.flaggedS).card : Int) = b.unflagged) := hcard
    constructor
    · intro hrem
      have hrem' : ¬((b.unrevealedS \ b.flaggedS) \ allClusterCells cls = ∅) := hrem
      rw [he, if_neg hne', if_neg h0, if_neg hcard', if_pos hsum, if_neg hrem']
      exact rfl
    · intro hrem
      have hrem' : (b.unrevealedS \ b.flaggedS) \ allClusterCells cls = ∅ := hrem
      rw [he, if_neg hne', if_neg h0, if_neg hcard', if_pos hsum, if_pos hrem']
  · intro h0 hcard hsum
    have hcard' : ¬(((b.unrevealedS \ b.flaggedS).card : Int) = b.unflagged) := hcard
    rw [he, if_neg hne', if_neg h0, if_neg hcard', if_neg hsum]

/-- Claim C6, witness: the characterization applied to the 1×1 board with
one unplaced mine, where rule (ii) fires. -/
theorem C6_fallback_characterization_witness :
    ukSet w6b ≠ ∅ ∧ w6b.unflagged ≠ 0 ∧ ((ukSet w6b).card : Int) = w6b.unflagged ∧
      fallbackStep w6b [] = some (∅, ukSet w6b) :=
  ⟨by decide, by decide, by decide,
    (C6_fallback_characterization w6b [] (by decide)).2.1 (by decide) (by decide)⟩

/-- Claim C7 (confirmed): on a structurally coherent board, every call to
`propagate_known_values` that returns `True` reveals or flags at least one
previously-unknown cell (the unknown-cell count strictly drops), so
repeated calls reach a no-progress round within a number of rounds bounded
by the number of hidden cells at the start. -/
theorem C7_propagation_terminates :
    ∀ b : Board, BasicInv b →
      ((propagate b).1 = true → uk (propagate b).2 < uk b) ∧
      stalls b.unrevealedS.card b = true := by
  intro b hb
  refine ⟨fun ht => (propagate_true_spec hb ht).1, ?_⟩
  exact stalls_of_le _ b hb (Finset.card_le_card Finset.sdiff_subset)

/-- Claim C7, witness: the termination theorem at the mine-free 1×1 board,
whose first round reveals the only cell and whose second round stalls. -/
theorem C7_propagation_terminates_witness :
    BasicInv w7b ∧ (propagate w7b).1 = true ∧ uk (propagate w7b).2 < uk w7b ∧
      stalls w7b.unrevealedS.card w7b = true :=
  ⟨by decide, by decide,
    (C7_propagation_terminates w7b (by decide)).1 (by decide),
    (C7_propagation_terminates w7b (by decide)).2⟩

/-- Claim C9, counterexample: `Solver.__init__` stores the caller's board
without any copy, so running `solve()` to verify the 1×3 scenario board
mutates the real game board: after the solve loop the real board's flagged
set has changed (the solver flagged (0,2)), even though the check
succeeded.  The source compensates with `reset()` plus re-expansion, not
with an independent deep copy. -/
theorem C9_solve_mutates_real_board :
    (solveLoopB 5 c9b).flaggedS ≠ c9b.flaggedS ∧ (solveLoopB 5 c9b).check_win = true := by
  decide

/-- Claim C9 (amended): the solver shares the real board rather than
working on a deep copy: every progressing round of the verification
changes the real board's revealed or flagged set. -/
theorem C9_solver_shares_real_board :
    ∀ b : Board, BasicInv b → (propagate b).1 = true →
      (propagate b).2.revealedS ≠ b.revealedS ∨ (propagate b).2.flaggedS ≠ b.flaggedS :=
  fun _ hb ht => (propagate_true_spec hb ht).2.2

/-- Claim C9, witness: a progressing round on the concrete scenario board
visibly changes it. -/
theorem C9_solver_shares_real_board_witness :
    BasicInv c9b ∧ (propagate c9b).1 = true ∧
      ((propagate c9b).2.revealedS ≠ c9b.revealedS ∨
        (propagate c9b).2.flaggedS ≠ c9b.flaggedS) :=
  ⟨by decide, by decide, C9_solver_shares_real_board c9b (by decide) (by decide)⟩

theorem guessLoop_run :
    ∀ (l : List Cluster) (best : Cluster) (uc : Finset Coord) (um : Int),
      (∀ c ∈ l, c.cells ≠ ∅) →
      ∃ bf umf, guessLoop best uc um l = Except.ok (bf, uc \ allClusterCells l, umf) := by
  intro l
  induction l with
  | nil =>
    intro best uc um _
    refine ⟨best, um, ?_⟩
    rw [guessLoop]
    have : allClusterCells [] = (∅ : Finset Coord) := rfl
    rw [this, Finset.sdiff_empty]
  | cons c rest ih =>
    intro best uc um h
    have hc : c.cells ≠ ∅ := h c (List.mem_cons_self c rest)
    rw [guessLoop, if_neg hc]
    obtain ⟨bf, umf, hrun⟩ := ih (if c.minePerc < best.minePerc then c else best)
      (uc \ c.cells) (um - c.mines) (fun d hd => h d (List.mem_cons_of_mem c hd))
    refine ⟨bf, umf, ?_⟩
    rw [hrun]
    have hcons : allClusterCells (c :: rest) = c.cells ∪ allClusterCells rest := rfl
    rw [hcons, sdiff_sdiff, Finset.sup_eq_union]

/-- Claim C10 (confirmed): on any state with only live (non-empty)
clusters, `make_guess` returns a guessing pool only when the cluster list
is non-empty and some hidden non-flagged cell lies outside every cluster;
an empty cluster list fails on `clusters[0]` (IndexError), and when every
hidden non-flagged cell is covered by the clusters the final probability
comparison divides by zero. -/
theorem C10_make_guess_unguarded_domain :
    ∀ (b : Board) (cls : List Cluster), (∀ c ∈ cls, c.cells ≠ ∅) →
      (cls = [] → make_guess b cls = Except.error GuessErr.indexError) ∧
      (cls ≠ [] → ukSet b ⊆ allClusterCells cls →
        make_guess b cls = Except.error GuessErr.divByZero) ∧
      (∀ pool, make_guess b cls = Except.ok pool →
        cls ≠ [] ∧ (ukSet b \ allClusterCells cls).Nonempty) := by
  intro b cls h
  refine ⟨?_, ?_, ?_⟩
  · rintro rfl
    rfl
  · intro hne hsub
    obtain ⟨c0, rest, rfl⟩ := List.exists_cons_of_ne_nil hne
    rw [make_guess]
    obtain ⟨bf, umf, hrun⟩ :=
      guessLoop_run (c0 :: rest) c0 (b.unrevealedS \ b.flaggedS) b.unflagged h
    rw [hrun]
    dsimp only
    have hemp : (b.unrevealedS \ b.flaggedS) \ allClusterCells (c0 :: rest) = ∅ :=
      Finset.sdiff_eq_empty_iff_subset.2 hsub
    rw [if_pos hemp]
  · intro pool hok
    cases cls with
    | nil =>
      rw [make_guess] at hok
      exact absurd hok (by simp)
    | cons c0 rest =>
      refine ⟨List.cons_ne_nil c0 rest, ?_⟩
      rw [make_guess] at hok
      obtain ⟨bf, umf, hrun⟩ :=
        guessLoop_run (c0 :: rest) c0 (b.unrevealedS \ b.flaggedS) b.unflagged h
      rw [hrun] at hok
      dsimp only at hok
      by_cases he : (b.unrevealedS \ b.flaggedS) \ allClusterCells (c0 :: rest) = ∅
      · rw [if_pos he] at hok
        exact absurd hok (by simp)
      · exact Finset.nonempty_iff_ne_empty.2 he

/-- Claim C10, witness: on the solved 1×3 scenario state, whose single
cluster covers the only hidden cell, `make_guess` hits the division by
zero. -/
theorem C10_make_guess_unguarded_domain_witness :
    (∀ c ∈ wCls, c.cells ≠ ∅) ∧ wCls ≠ [] ∧ ukSet c9b ⊆ allClusterCells wCls ∧
      make_guess c9b wCls = Except.error GuessErr.divByZero :=
  ⟨by decide, by decide, by decide,
    (C10_make_guess_unguarded_domain c9b wCls (by decide)).2.1 (by decide) (by decide)⟩

theorem solveLoopB_stall {b : Board} (h : (roundOutcome b).1 = none) :
    ∀ n : Nat, solveLoopB n b = b := by
  have hp : propagate b = (false, b) := by rw [propagate, h]
  intro n
  cases n with
  | zero => rfl
  | succ k =>
    rw [solveLoopB, hp]
    simp

theorem genStep_genB0_cycles :
    genStep 2 3 1 (0, 0) [(0, 2)] (0, 0) genB0 = Sum.inr genB0 := by
  have hro : (roundOutcome genB0).1 = none := by decide
  rw [genStep]
  rw [solveLoopB_stall hro]
  have hwin : genB0.check_win = false := by decide
  rw [hwin]
  have h1 : ¬(((genB0.unrevealedS \ genB0.flaggedS).biUnion genB0.nbhd ∩
      genB0.revealedS) = ∅) := by decide
  have h2 : (((genB0.unrevealedS \ genB0.flaggedS).card : Int)) = genB0.unflagged + 1 := by
    decide
  rw [if_neg (by simp), if_neg h1, if_pos h2]
  rfl

set_option maxHeartbeats 1000000 in
/-- Claim C8 (code bug): the no-guessing generation loop has no retry cap
and never signals an UngenerableBoard failure.  On the 2×3 board with one
mine and start cell (0,0), the solver stalls on the 50/50 pair
{(0,2),(1,2)}; the loop classifies the stall as "provably unsolvable" and
regenerates, and when the (adversarial) random sample keeps placing the
mine at (0,2), the regenerated board equals the old one: for every fuel
bound `n`, the loop is still running after `n` iterations. -/
theorem C8_generation_loop_never_capped :
    ∀ n : Nat, genLoop 2 3 1 (0, 0) [(0, 2)] (0, 0) n genB0 = none := by
  intro n
  induction n with
  | zero => rfl
  | succ k ih =>
    rw [genLoop, genStep_genB0_cycles, Sum.elim_inr]
    exact ih

end MineTUIper
